import Mathlib

/-!
Verification of the wave-simulator signal-analysis core.

The C++ core is shallowly embedded: `double` becomes `ℝ`, the repository's
`Complex` value type becomes Mathlib's `ℂ` (`real`/`imag` fields map to
`re`/`im`, `magnitude()` to `Complex.abs`, `phase()` i.e. `atan2(imag, real)`
to `Complex.arg`), `std::vector` becomes `List`, and `size_t` becomes `ℕ`
(with 64-bit wraparound of subtraction modelled explicitly where it matters).
The numeric constant `Physics::PI` denotes the real π in exact arithmetic.
-/

noncomputable section

open Classical Real Complex

namespace FourierAnalyzer

mutual
/-- Even-indexed elements of a list, in order (the `even` vector built by
`fftRecursive`'s divide step). -/
def evens : List ℂ → List ℂ
  | [] => []
  | a :: rest => a :: odds rest

/-- Odd-indexed elements of a list, in order (the `odd` vector built by
`fftRecursive`'s divide step). -/
def odds : List ℂ → List ℂ
  | [] => []
  | _ :: rest => evens rest
end

theorem evens_odds_length (l : List ℂ) :
    (evens l).length = (l.length + 1) / 2 ∧ (odds l).length = l.length / 2 := by
  induction l with
  | nil => simp [evens, odds]
  | cons a rest ih =>
    constructor
    · rw [evens, List.length_cons, ih.2, List.length_cons]
      omega
    · rw [odds, ih.1, List.length_cons]

theorem evens_length (l : List ℂ) : (evens l).length = (l.length + 1) / 2 :=
  (evens_odds_length l).1

theorem odds_length (l : List ℂ) : (odds l).length = l.length / 2 :=
  (evens_odds_length l).2

theorem evens_odds_getD (l : List ℂ) (d : ℂ) :
    (∀ r, (evens l).getD r d = l.getD (2 * r) d) ∧
    (∀ r, (odds l).getD r d = l.getD (2 * r + 1) d) := by
  induction l with
  | nil => simp [evens, odds]
  | cons a rest ih =>
    constructor
    · intro r
      cases r with
      | zero => simp [evens]
      | succ r =>
        have h2 : 2 * (r + 1) = 2 * r + 1 + 1 := by omega
        rw [evens, List.getD_cons_succ, h2, List.getD_cons_succ, ih.2 r]
    · intro r
      rw [odds, ih.1 r, List.getD_cons_succ]

theorem evens_getD (l : List ℂ) (d : ℂ) (r : ℕ) :
    (evens l).getD r d = l.getD (2 * r) d :=
  (evens_odds_getD l d).1 r

theorem odds_getD (l : List ℂ) (d : ℂ) (r : ℕ) :
    (odds l).getD r d = l.getD (2 * r + 1) d :=
  (evens_odds_getD l d).2 r

/-- Twiddle factor built by the combine loop of `fftRecursive`:
`angle = -TWO_PI * k / n; w = Complex(cos(angle), sin(angle))`. -/
def twiddle (n k : ℕ) : ℂ :=
  ⟨Real.cos (-(2 * π * k / n)), Real.sin (-(2 * π * k / n))⟩

theorem twiddle_eq_exp (n k : ℕ) :
    twiddle n k = Complex.exp (-(2 * π * k / n) * Complex.I) := by
  rw [twiddle, Complex.mk_eq_add_mul_I, Complex.exp_mul_I]
  push_cast
  ring

/-- Recursive radix-2 decimation-in-time transform (`FourierAnalyzer::fftRecursive`).
The combine loop writes `result[k]` and `result[k + n/2]` for `k < n/2` into a
zero-initialised vector of length `n`; the map below reproduces exactly those
writes (the final branch is the untouched default, reachable only for odd `n`). -/
def fftRecursive (x : List ℂ) : List ℂ :=
  if x.length ≤ 1 then x
  else
    let n := x.length
    let evenFFT := fftRecursive (evens x)
    let oddFFT := fftRecursive (odds x)
    (List.range n).map (fun idx =>
      if idx < n / 2 then
        evenFFT.getD idx 0 + twiddle n idx * oddFFT.getD idx 0
      else if idx < n / 2 + n / 2 then
        evenFFT.getD (idx - n / 2) 0 - twiddle n (idx - n / 2) * oddFFT.getD (idx - n / 2) 0
      else 0)
termination_by x.length
decreasing_by
  · have := evens_length x
    omega
  · have := odds_length x
    omega

theorem fftRecursive_length (x : List ℂ) : (fftRecursive x).length = x.length := by
  rw [fftRecursive]
  split
  · rfl
  · simp

/-- Loop body of `FourierAnalyzer::nextPowerOfTwo`:
`while (power < n) power *= 2`.  The C++ loop diverges if `power` were `0`;
the guard `1 ≤ power` (always true at the call site, where `power` starts
at `1`) makes the Lean definition total. -/
def powLoop (n power : ℕ) : ℕ :=
  if h : 1 ≤ power ∧ power < n then powLoop n (2 * power) else power
termination_by n - power
decreasing_by omega

/-- Smallest power of two ≥ `n` (`FourierAnalyzer::nextPowerOfTwo`). -/
def nextPowerOfTwo (n : ℕ) : ℕ :=
  if n ≤ 1 then 1 else powLoop n 1

/-- Resize of a `std::vector` to `n` elements: truncates or pads with the
given fill value (`complexSignal.resize(n, Complex(0.0, 0.0))`). -/
def resize (l : List ℂ) (n : ℕ) : List ℂ :=
  if n ≤ l.length then l.take n else l ++ List.replicate (n - l.length) 0

/-- Forward transform entry point (`FourierAnalyzer::fft`): convert the real
signal to complex, zero-pad to the next power of two, and run `fftRecursive`. -/
def fft (signal : List ℝ) : List ℂ :=
  let complexSignal : List ℂ := signal.map (fun (v : ℝ) => (v : ℂ))
  let n := nextPowerOfTwo signal.length
  fftRecursive (resize complexSignal n)

/-- Inverse transform (`FourierAnalyzer::ifft`): conjugate the spectrum, run
`fftRecursive`, then conjugate and divide each component by `n = result.size()`. -/
def ifft (spectrum : List ℂ) : List ℂ :=
  let conjugated : List ℂ := spectrum.map (fun c => ⟨c.re, -c.im⟩)
  let result := fftRecursive conjugated
  let n : ℝ := result.length
  result.map (fun c => ⟨c.re / n, -c.im / n⟩)

/-- Textbook discrete Fourier transform, index form: bin `k` of `dft x` is
`∑ⱼ xⱼ · e^(−2πi·j·k/N)`.  Reference definition used to state what
`fftRecursive` computes. -/
def dft (x : List ℂ) : List ℂ :=
  (List.range x.length).map fun (k : ℕ) =>
    ∑ j ∈ Finset.range x.length,
      x.getD j 0 * Complex.exp (-(2 * (π : ℂ) * j * k / x.length) * Complex.I)

theorem dft_length (x : List ℂ) : (dft x).length = x.length := by
  rw [dft, List.length_map, List.length_range]

theorem powLoop_ge_aux (fuel : ℕ) :
    ∀ n p : ℕ, n - p ≤ fuel → 1 ≤ p → n ≤ powLoop n p := by
  induction fuel with
  | zero =>
    intro n p hf hp
    rw [powLoop]
    have hnp : ¬ p < n := by omega
    rw [dif_neg (by omega)]
    omega
  | succ fuel ih =>
    intro n p hf hp
    rw [powLoop]
    by_cases h : 1 ≤ p ∧ p < n
    · rw [dif_pos h]
      exact ih n (2 * p) (by omega) (by omega)
    · rw [dif_neg h]
      omega

theorem powLoop_ge (n p : ℕ) (hp : 1 ≤ p) : n ≤ powLoop n p :=
  powLoop_ge_aux (n - p) n p le_rfl hp

theorem powLoop_pow_aux (fuel : ℕ) :
    ∀ n p : ℕ, n - p ≤ fuel → (∃ j, p = 2 ^ j) → ∃ j, powLoop n p = 2 ^ j := by
  induction fuel with
  | zero =>
    intro n p hf hj
    rw [powLoop]
    by_cases h : 1 ≤ p ∧ p < n
    · omega
    · rw [dif_neg h]; exact hj
  | succ fuel ih =>
    intro n p hf hj
    rw [powLoop]
    by_cases h : 1 ≤ p ∧ p < n
    · rw [dif_pos h]
      obtain ⟨j, rfl⟩ := hj
      exact ih n (2 * 2 ^ j) (by omega) ⟨j + 1, by ring⟩
    · rw [dif_neg h]; exact hj

theorem powLoop_le_aux (fuel : ℕ) :
    ∀ n p m : ℕ, n - p ≤ fuel → (∃ j, m = p * 2 ^ j) → p ≤ m → n ≤ m →
      powLoop n p ≤ m := by
  induction fuel with
  | zero =>
    intro n p m hf _ hpm hnm
    rw [powLoop]
    by_cases h : 1 ≤ p ∧ p < n
    · omega
    · rw [dif_neg h]; exact hpm
  | succ fuel ih =>
    intro n p m hf hj hpm hnm
    rw [powLoop]
    by_cases h : 1 ≤ p ∧ p < n
    · rw [dif_pos h]
      obtain ⟨j, rfl⟩ := hj
      have hj1 : 1 ≤ j := by
        by_contra hc
        have : j = 0 := by omega
        subst this
        simp at hnm hpm ⊢
        omega
      obtain ⟨j', rfl⟩ : ∃ j', j = j' + 1 := ⟨j - 1, by omega⟩
      refine ih n (2 * p) (p * 2 ^ (j' + 1)) (by omega) ⟨j', by rw [pow_succ]; ring⟩ ?_ hnm
      have h2 : 2 ≤ 2 ^ (j' + 1) := by
        calc 2 = 2 ^ 1 := by norm_num
        _ ≤ 2 ^ (j' + 1) := Nat.pow_le_pow_right (by norm_num) hj1
      nlinarith
    · rw [dif_neg h]; exact hpm

theorem nextPowerOfTwo_ge (n : ℕ) : n ≤ nextPowerOfTwo n := by
  rw [nextPowerOfTwo]
  by_cases h : n ≤ 1
  · rw [if_pos h]; omega
  · rw [if_neg h]; exact powLoop_ge n 1 le_rfl

theorem nextPowerOfTwo_pos (n : ℕ) : 1 ≤ nextPowerOfTwo n := by
  rw [nextPowerOfTwo]
  by_cases h : n ≤ 1
  · rw [if_pos h]
  · rw [if_neg h]
    have := powLoop_ge n 1 le_rfl
    omega

theorem nextPowerOfTwo_pow (n : ℕ) : ∃ k, nextPowerOfTwo n = 2 ^ k := by
  rw [nextPowerOfTwo]
  by_cases h : n ≤ 1
  · rw [if_pos h]; exact ⟨0, rfl⟩
  · rw [if_neg h]
    exact powLoop_pow_aux (n - 1) n 1 le_rfl ⟨0, rfl⟩

theorem nextPowerOfTwo_min (n m : ℕ) (hm : ∃ j, m = 2 ^ j) (hnm : n ≤ m) :
    nextPowerOfTwo n ≤ m := by
  obtain ⟨j, rfl⟩ := hm
  rw [nextPowerOfTwo]
  by_cases h : n ≤ 1
  · rw [if_pos h]
    exact Nat.one_le_two_pow
  · rw [if_neg h]
    exact powLoop_le_aux (n - 1) n 1 (2 ^ j) le_rfl ⟨j, by ring⟩ Nat.one_le_two_pow hnm

theorem nextPowerOfTwo_two_pow (k : ℕ) : nextPowerOfTwo (2 ^ k) = 2 ^ k :=
  le_antisymm (nextPowerOfTwo_min _ _ ⟨k, rfl⟩ le_rfl) (nextPowerOfTwo_ge _)

end FourierAnalyzer

section ListHelpers

theorem getD_map_range {β : Type} (n j : ℕ) (f : ℕ → β) (d : β) (h : j < n) :
    ((List.range n).map f).getD j d = f j := by
  rw [List.getD_eq_getElem?_getD, List.getElem?_eq_getElem (by simpa using h)]
  simp

theorem getD_map_of_lt {α β : Type} (f : α → β) (l : List α) (i : ℕ) (dα : α) (dβ : β)
    (h : i < l.length) : (l.map f).getD i dβ = f (l.getD i dα) := by
  rw [List.getD_eq_getElem?_getD, List.getElem?_eq_getElem (by simpa using h)]
  rw [List.getD_eq_getElem?_getD, List.getElem?_eq_getElem h]
  simp

theorem list_ext_getD {α : Type} (d : α) (l₁ l₂ : List α) (hlen : l₁.length = l₂.length)
    (h : ∀ i, i < l₁.length → l₁.getD i d = l₂.getD i d) : l₁ = l₂ := by
  apply List.ext_getElem hlen
  intro i h1 h2
  have := h i h1
  rwa [List.getD_eq_getElem?_getD, List.getElem?_eq_getElem h1,
    List.getD_eq_getElem?_getD, List.getElem?_eq_getElem h2] at this

theorem sum_range_even_odd (m : ℕ) (f : ℕ → ℂ) :
    ∑ i ∈ Finset.range (2 * m), f i =
      ∑ r ∈ Finset.range m, f (2 * r) + ∑ r ∈ Finset.range m, f (2 * r + 1) := by
  induction m with
  | zero => simp
  | succ m ih =>
    have h2 : 2 * (m + 1) = 2 * m + 1 + 1 := by ring
    rw [h2, Finset.sum_range_succ, Finset.sum_range_succ, ih,
      Finset.sum_range_succ, Finset.sum_range_succ]
    ring

end ListHelpers

namespace FourierAnalyzer

theorem dft_getD (x : List ℂ) (j : ℕ) (h : j < x.length) :
    (dft x).getD j 0 =
      ∑ i ∈ Finset.range x.length,
        x.getD i 0 * Complex.exp (-(2 * (π : ℂ) * i * j / x.length) * Complex.I) := by
  rw [dft]
  exact getD_map_range _ _ _ _ h

/-- Correctness of the recursive radix-2 combine: on inputs of power-of-two
length, `fftRecursive` computes exactly the textbook DFT. -/
theorem fftRecursive_eq_dft (k : ℕ) :
    ∀ x : List ℂ, x.length = 2 ^ k → fftRecursive x = dft x := by
  induction k with
  | zero =>
    intro x hx
    have h1 : x.length ≤ 1 := by rw [hx]; norm_num
    obtain ⟨a, rfl⟩ := List.length_eq_one.mp (by rw [hx, pow_zero])
    rw [fftRecursive, if_pos h1, dft]
    simp
  | succ k ih =>
    intro x hx
    have hm0 : (2 : ℕ) ^ k ≠ 0 := pow_ne_zero k two_ne_zero
    have hmc : ((2 : ℕ) ^ k : ℂ) ≠ 0 := by
      exact_mod_cast (Nat.cast_ne_zero (R := ℂ)).mpr hm0
    have hx2 : x.length = 2 * 2 ^ k := by rw [hx, pow_succ]; ring
    have hn1 : ¬ x.length ≤ 1 := by
      rw [hx2]
      have : 1 ≤ (2 : ℕ) ^ k := Nat.one_le_two_pow
      omega
    have hle : (evens x).length = 2 ^ k := by rw [evens_length, hx2]; omega
    have hlo : (odds x).length = 2 ^ k := by rw [odds_length, hx2]; omega
    have hdiv : 2 * 2 ^ k / 2 = 2 ^ k := by omega
    rw [fftRecursive, if_neg hn1, dft]
    simp only [ih (evens x) hle, ih (odds x) hlo, hx2, hdiv]
    apply List.map_congr_left
    intro idx hidx
    rw [List.mem_range] at hidx
    by_cases hcase : idx < 2 ^ k
    · rw [if_pos hcase]
      rw [dft_getD (evens x) idx (by rw [hle]; exact hcase),
        dft_getD (odds x) idx (by rw [hlo]; exact hcase)]
      simp only [hle, hlo]
      have Hev : (∑ i ∈ Finset.range (2 ^ k),
            (evens x).getD i 0 *
              Complex.exp (-(2 * (π : ℂ) * i * idx / (2 ^ k : ℕ)) * Complex.I)) =
          ∑ r ∈ Finset.range (2 ^ k),
            x.getD (2 * r) 0 *
              Complex.exp (-(2 * (π : ℂ) * r * idx / (2 ^ k : ℕ)) * Complex.I) := by
        refine Finset.sum_congr rfl fun r _ => ?_
        rw [evens_getD]
      have Hod : (∑ i ∈ Finset.range (2 ^ k),
            (odds x).getD i 0 *
              Complex.exp (-(2 * (π : ℂ) * i * idx / (2 ^ k : ℕ)) * Complex.I)) =
          ∑ r ∈ Finset.range (2 ^ k),
            x.getD (2 * r + 1) 0 *
              Complex.exp (-(2 * (π : ℂ) * r * idx / (2 ^ k : ℕ)) * Complex.I) := by
        refine Finset.sum_congr rfl fun r _ => ?_
        rw [odds_getD]
      rw [Hev, Hod, sum_range_even_odd]
      have Hev2 : (∑ r ∈ Finset.range (2 ^ k),
            x.getD (2 * r) 0 *
              Complex.exp (-(2 * (π : ℂ) * (2 * r : ℕ) * idx / ((2 * 2 ^ k : ℕ) : ℂ)) *
                Complex.I)) =
          ∑ r ∈ Finset.range (2 ^ k),
            x.getD (2 * r) 0 *
              Complex.exp (-(2 * (π : ℂ) * r * idx / (2 ^ k : ℕ)) * Complex.I) := by
        refine Finset.sum_congr rfl fun r _ => ?_
        congr 2
        push_cast
        field_simp
        try ring
      have Hod2 : (∑ r ∈ Finset.range (2 ^ k),
            x.getD (2 * r + 1) 0 *
              Complex.exp (-(2 * (π : ℂ) * (2 * r + 1 : ℕ) * idx / ((2 * 2 ^ k : ℕ) : ℂ)) *
                Complex.I)) =
          ∑ r ∈ Finset.range (2 ^ k),
            Complex.exp (-(2 * (π : ℂ) * idx / ((2 * 2 ^ k : ℕ) : ℂ)) * Complex.I) *
              (x.getD (2 * r + 1) 0 *
                Complex.exp (-(2 * (π : ℂ) * r * idx / (2 ^ k : ℕ)) * Complex.I)) := by
        refine Finset.sum_congr rfl fun r _ => ?_
        have harg : (-(2 * (π : ℂ) * (2 * r + 1 : ℕ) * idx / ((2 * 2 ^ k : ℕ) : ℂ)) *
              Complex.I) =
            (-(2 * (π : ℂ) * idx / ((2 * 2 ^ k : ℕ) : ℂ)) * Complex.I) +
              (-(2 * (π : ℂ) * r * idx / (2 ^ k : ℕ)) * Complex.I) := by
          push_cast
          field_simp
          try ring
        rw [harg, Complex.exp_add]
        ring
      rw [Hev2, Hod2, ← Finset.mul_sum, twiddle_eq_exp]
    · have hcase2 : idx < 2 ^ k + 2 ^ k := by omega
      rw [if_neg hcase, if_pos hcase2]
      obtain ⟨j, rfl⟩ : ∃ j, idx = 2 ^ k + j := ⟨idx - 2 ^ k, by omega⟩
      have hj : j < 2 ^ k := by omega
      have hsub : 2 ^ k + j - 2 ^ k = j := by omega
      rw [hsub]
      rw [dft_getD (evens x) j (by rw [hle]; exact hj),
        dft_getD (odds x) j (by rw [hlo]; exact hj)]
      simp only [hle, hlo]
      have Hev : (∑ i ∈ Finset.range (2 ^ k),
            (evens x).getD i 0 *
              Complex.exp (-(2 * (π : ℂ) * i * j / (2 ^ k : ℕ)) * Complex.I)) =
          ∑ r ∈ Finset.range (2 ^ k),
            x.getD (2 * r) 0 *
              Complex.exp (-(2 * (π : ℂ) * r * j / (2 ^ k : ℕ)) * Complex.I) := by
        refine Finset.sum_congr rfl fun r _ => ?_
        rw [evens_getD]
      have Hod : (∑ i ∈ Finset.range (2 ^ k),
            (odds x).getD i 0 *
              Complex.exp (-(2 * (π : ℂ) * i * j / (2 ^ k : ℕ)) * Complex.I)) =
          ∑ r ∈ Finset.range (2 ^ k),
            x.getD (2 * r + 1) 0 *
              Complex.exp (-(2 * (π : ℂ) * r * j / (2 ^ k : ℕ)) * Complex.I) := by
        refine Finset.sum_congr rfl fun r _ => ?_
        rw [odds_getD]
      rw [Hev, Hod, sum_range_even_odd]
      have Hev2 : (∑ r ∈ Finset.range (2 ^ k),
            x.getD (2 * r) 0 *
              Complex.exp
                (-(2 * (π : ℂ) * (2 * r : ℕ) * (2 ^ k + j : ℕ) / ((2 * 2 ^ k : ℕ) : ℂ)) *
                  Complex.I)) =
          ∑ r ∈ Finset.range (2 ^ k),
            x.getD (2 * r) 0 *
              Complex.exp (-(2 * (π : ℂ) * r * j / (2 ^ k : ℕ)) * Complex.I) := by
        refine Finset.sum_congr rfl fun r _ => ?_
        have harg : (-(2 * (π : ℂ) * (2 * r : ℕ) * (2 ^ k + j : ℕ) / ((2 * 2 ^ k : ℕ) : ℂ)) *
              Complex.I) =
            (-(2 * (π : ℂ) * r * j / (2 ^ k : ℕ)) * Complex.I) +
              ((-(r : ℤ) : ℤ) : ℂ) * (2 * (π : ℂ) * Complex.I) := by
          push_cast
          field_simp
          try ring
        rw [harg, Complex.exp_add, Complex.exp_int_mul_two_pi_mul_I, mul_one]
      have Hod2 : (∑ r ∈ Finset.range (2 ^ k),
            x.getD (2 * r + 1) 0 *
              Complex.exp
                (-(2 * (π : ℂ) * (2 * r + 1 : ℕ) * (2 ^ k + j : ℕ) / ((2 * 2 ^ k : ℕ) : ℂ)) *
                  Complex.I)) =
          ∑ r ∈ Finset.range (2 ^ k),
            -(Complex.exp (-(2 * (π : ℂ) * j / ((2 * 2 ^ k : ℕ) : ℂ)) * Complex.I) *
              (x.getD (2 * r + 1) 0 *
                Complex.exp (-(2 * (π : ℂ) * r * j / (2 ^ k : ℕ)) * Complex.I))) := by
        refine Finset.sum_congr rfl fun r _ => ?_
        have harg : (-(2 * (π : ℂ) * (2 * r + 1 : ℕ) * (2 ^ k + j : ℕ) /
              ((2 * 2 ^ k : ℕ) : ℂ)) * Complex.I) =
            (-(2 * (π : ℂ) * j / ((2 * 2 ^ k : ℕ) : ℂ)) * Complex.I) +
              (-(2 * (π : ℂ) * r * j / (2 ^ k : ℕ)) * Complex.I) +
              (π : ℂ) * Complex.I +
              ((-(1 + r : ℤ) : ℤ) : ℂ) * (2 * (π : ℂ) * Complex.I) := by
          push_cast
          field_simp
          try ring
        rw [harg, Complex.exp_add, Complex.exp_add, Complex.exp_add,
          Complex.exp_int_mul_two_pi_mul_I, Complex.exp_pi_mul_I, mul_one]
        ring
      rw [Hev2, Hod2, Finset.sum_neg_distrib, ← Finset.mul_sum, twiddle_eq_exp]
      all_goals try push_cast
      all_goals try ring

theorem mk_conj (c : ℂ) : (⟨c.re, -c.im⟩ : ℂ) = (starRingEnd ℂ) c := by
  apply Complex.ext <;> simp

theorem mk_div_real (c : ℂ) (n : ℝ) :
    (⟨c.re / n, -c.im / n⟩ : ℂ) = (starRingEnd ℂ) c / (n : ℂ) := by
  apply Complex.ext <;> simp

theorem conj_cexp_neg (a : ℂ) :
    (starRingEnd ℂ) (Complex.exp (-a * Complex.I)) =
      Complex.exp (-((starRingEnd ℂ) a) * (-Complex.I)) := by
  rw [← Complex.exp_conj]
  congr 1
  simp

theorem exp_two_pi_ratio_ne_one (N : ℕ) (d : ℤ) (hN : N ≠ 0) (hd : d ≠ 0)
    (hlt : d.natAbs < N) :
    Complex.exp (2 * (π : ℂ) * d / N * Complex.I) ≠ 1 := by
  intro h
  obtain ⟨n, hn⟩ := Complex.exp_eq_one_iff.mp h
  have h1 : ((2 * π * (d : ℝ) / (N : ℝ) : ℝ) : ℂ) * Complex.I =
      2 * (π : ℂ) * d / N * Complex.I := by push_cast; ring
  have h2 : ((2 * π * (n : ℝ) : ℝ) : ℂ) * Complex.I =
      (n : ℂ) * (2 * (π : ℂ) * Complex.I) := by push_cast; ring
  rw [← h1, ← h2] at hn
  have h3 : (2 * π * (d : ℝ) / (N : ℝ)) = 2 * π * (n : ℝ) := by
    have := mul_right_cancel₀ Complex.I_ne_zero hn
    exact_mod_cast this
  have hNr : (N : ℝ) ≠ 0 := Nat.cast_ne_zero.mpr hN
  have h2pi : (2 * π : ℝ) ≠ 0 := by positivity
  have h5 : (d : ℝ) = n * N := by
    have h4 : 2 * π * (d : ℝ) = 2 * π * ((n : ℝ) * N) := by
      field_simp at h3
      linarith
    have := mul_left_cancel₀ h2pi h4
    linarith
  have h6 : d = n * (N : ℤ) := by exact_mod_cast h5
  have hn0 : n ≠ 0 := by
    intro hc
    rw [hc] at h6
    simp at h6
    exact hd h6
  have h7 : d.natAbs = n.natAbs * N := by
    rw [h6, Int.natAbs_mul, Int.natAbs_ofNat]
  have h8 : 1 ≤ n.natAbs := Int.natAbs_pos.mpr hn0
  have : N ≤ d.natAbs := by
    rw [h7]
    nlinarith
  omega

theorem sum_cexp_nonzero_freq (N : ℕ) (d : ℤ) (hN : N ≠ 0) (hd : d ≠ 0)
    (hlt : d.natAbs < N) :
    ∑ m ∈ Finset.range N, Complex.exp (2 * (π : ℂ) * m * d / N * Complex.I) = 0 := by
  have hterm : ∀ m : ℕ, Complex.exp (2 * (π : ℂ) * m * d / N * Complex.I)
      = Complex.exp (2 * (π : ℂ) * d / N * Complex.I) ^ m := by
    intro m
    rw [← Complex.exp_nat_mul]
    congr 1
    ring
  simp only [hterm]
  rw [geom_sum_eq (exp_two_pi_ratio_ne_one N d hN hd hlt)]
  have hpow : Complex.exp (2 * (π : ℂ) * d / N * Complex.I) ^ N = 1 := by
    rw [← Complex.exp_nat_mul]
    have hNc : (N : ℂ) ≠ 0 := Nat.cast_ne_zero.mpr hN
    have harg : (N : ℂ) * (2 * (π : ℂ) * d / N * Complex.I) =
        (d : ℂ) * (2 * (π : ℂ) * Complex.I) := by
      field_simp
      ring
    rw [harg, Complex.exp_int_mul_two_pi_mul_I]
  rw [hpow]
  simp

/-- Orthogonality of the discrete Fourier kernel: summing
`e^(−2πi·l·m/N) · e^(2πi·m·j/N)` over one period gives `N` on the diagonal
and `0` off it. -/
theorem dft_kernel_ortho (N l j : ℕ) (hN : N ≠ 0) (hl : l < N) (hj : j < N) :
    ∑ m ∈ Finset.range N,
      Complex.exp (-(2 * (π : ℂ) * l * m / N) * Complex.I) *
        Complex.exp (2 * (π : ℂ) * m * j / N * Complex.I) =
      if l = j then (N : ℂ) else 0 := by
  by_cases heq : l = j
  · subst heq
    rw [if_pos rfl]
    have hterm : ∀ m ∈ Finset.range N,
        Complex.exp (-(2 * (π : ℂ) * l * m / N) * Complex.I) *
          Complex.exp (2 * (π : ℂ) * m * l / N * Complex.I) = 1 := by
      intro m _
      rw [← Complex.exp_add]
      have harg : (-(2 * (π : ℂ) * l * m / N) * Complex.I) +
          2 * (π : ℂ) * m * l / N * Complex.I = 0 := by ring
      rw [harg, Complex.exp_zero]
    rw [Finset.sum_congr rfl hterm]
    simp
  · rw [if_neg heq]
    have hterm : ∀ m ∈ Finset.range N,
        Complex.exp (-(2 * (π : ℂ) * l * m / N) * Complex.I) *
          Complex.exp (2 * (π : ℂ) * m * j / N * Complex.I) =
        Complex.exp (2 * (π : ℂ) * m * ((((j : ℤ) - (l : ℤ)) : ℤ) : ℂ) / N * Complex.I) := by
      intro m _
      rw [← Complex.exp_add]
      congr 1
      push_cast
      have hNc : (N : ℂ) ≠ 0 := Nat.cast_ne_zero.mpr hN
      field_simp
      ring
    rw [Finset.sum_congr rfl hterm]
    apply sum_cexp_nonzero_freq N ((j : ℤ) - (l : ℤ)) hN
    · intro hc
      apply heq
      omega
    · omega

theorem dft_inverse_getD (xc : List ℂ) (i : ℕ) (hN : xc.length ≠ 0)
    (hi : i < xc.length) :
    (starRingEnd ℂ) ((dft ((dft xc).map (fun c => (⟨c.re, -c.im⟩ : ℂ)))).getD i 0) /
        ((xc.length : ℝ) : ℂ) = xc.getD i 0 := by
  have hC : ((dft xc).map (fun c => (⟨c.re, -c.im⟩ : ℂ))).length = xc.length := by
    rw [List.length_map, dft_length]
  rw [dft_getD _ i (by rw [hC]; exact hi)]
  simp only [hC]
  have hstep1 : ∀ m ∈ Finset.range xc.length,
      ((dft xc).map (fun c => (⟨c.re, -c.im⟩ : ℂ))).getD m 0 *
        Complex.exp (-(2 * (π : ℂ) * m * i / xc.length) * Complex.I)
      = (starRingEnd ℂ) ((dft xc).getD m 0 *
          Complex.exp (2 * (π : ℂ) * m * i / xc.length * Complex.I)) := by
    intro m hm
    rw [Finset.mem_range] at hm
    rw [getD_map_of_lt _ _ m 0 0 (by rw [dft_length]; exact hm), mk_conj, map_mul]
    congr 1
    rw [← Complex.exp_conj]
    congr 1
    simp [map_ofNat]
    try ring
  rw [Finset.sum_congr rfl hstep1, ← map_sum, Complex.conj_conj]
  have hstep2 : ∀ m ∈ Finset.range xc.length,
      (dft xc).getD m 0 * Complex.exp (2 * (π : ℂ) * m * i / xc.length * Complex.I)
      = ∑ l ∈ Finset.range xc.length,
          xc.getD l 0 * (Complex.exp (-(2 * (π : ℂ) * l * m / xc.length) * Complex.I) *
            Complex.exp (2 * (π : ℂ) * m * i / xc.length * Complex.I)) := by
    intro m hm
    rw [Finset.mem_range] at hm
    rw [dft_getD xc m hm, Finset.sum_mul]
    refine Finset.sum_congr rfl fun l _ => ?_
    ring
  rw [Finset.sum_congr rfl hstep2, Finset.sum_comm]
  have hstep3 : ∀ l ∈ Finset.range xc.length,
      (∑ m ∈ Finset.range xc.length, xc.getD l 0 *
        (Complex.exp (-(2 * (π : ℂ) * l * m / xc.length) * Complex.I) *
          Complex.exp (2 * (π : ℂ) * m * i / xc.length * Complex.I)))
      = xc.getD l 0 * (if l = i then (xc.length : ℂ) else 0) := by
    intro l hl
    rw [Finset.mem_range] at hl
    rw [← Finset.mul_sum, dft_kernel_ortho xc.length l i hN hl hi]
  rw [Finset.sum_congr rfl hstep3]
  simp only [mul_ite, mul_zero]
  rw [Finset.sum_ite_eq' (Finset.range xc.length) i (fun l => xc.getD l 0 * xc.length),
    if_pos (Finset.mem_range.mpr hi)]
  have hNc : ((xc.length : ℝ) : ℂ) ≠ 0 := by
    push_cast
    exact Nat.cast_ne_zero.mpr hN
  push_cast
  push_cast at hNc
  field_simp

/-- C1: for every real input signal whose length is a power of two,
`ifft(fft(x))` reconstructs `x` exactly in exact real arithmetic, where `ifft`
conjugates its input, applies the forward transform, then conjugates the
result and divides every component by `N`. -/
theorem ifft_fft_roundtrip (x : List ℝ) (h : ∃ k, x.length = 2 ^ k) :
    ifft (fft x) = x.map (fun (a : ℝ) => (a : ℂ)) := by
  obtain ⟨k, hk⟩ := h
  have hmaplen : (x.map (fun (a : ℝ) => (a : ℂ))).length = 2 ^ k := by
    rw [List.length_map, hk]
  have hres : resize (x.map (fun (a : ℝ) => (a : ℂ))) (nextPowerOfTwo x.length) =
      x.map (fun (a : ℝ) => (a : ℂ)) := by
    rw [hk, nextPowerOfTwo_two_pow, resize, if_pos (le_of_eq hmaplen.symm)]
    rw [← hmaplen, List.take_length]
  have hfft : fft x = dft (x.map (fun (a : ℝ) => (a : ℂ))) := by
    simp only [fft]
    rw [hres]
    exact fftRecursive_eq_dft k _ hmaplen
  rw [hfft]
  simp only [ifft]
  have hClen : ((dft (x.map (fun (a : ℝ) => (a : ℂ)))).map
      (fun c => (⟨c.re, -c.im⟩ : ℂ))).length = 2 ^ k := by
    rw [List.length_map, dft_length, hmaplen]
  have hfr : fftRecursive ((dft (x.map (fun (a : ℝ) => (a : ℂ)))).map
        (fun c => (⟨c.re, -c.im⟩ : ℂ)))
      = dft ((dft (x.map (fun (a : ℝ) => (a : ℂ)))).map (fun c => (⟨c.re, -c.im⟩ : ℂ))) :=
    fftRecursive_eq_dft k _ hClen
  rw [hfr]
  have hdlen : (dft ((dft (x.map (fun (a : ℝ) => (a : ℂ)))).map
      (fun c => (⟨c.re, -c.im⟩ : ℂ)))).length = (x.map (fun (a : ℝ) => (a : ℂ))).length := by
    rw [dft_length, List.length_map, dft_length]
  rw [hdlen]
  apply list_ext_getD (0 : ℂ)
  · rw [List.length_map]
    exact hdlen
  · intro i hi
    rw [List.length_map] at hi
    rw [getD_map_of_lt _ _ i 0 0 hi]
    rw [mk_div_real]
    exact dft_inverse_getD (x.map (fun (a : ℝ) => (a : ℂ))) i
      (by rw [hmaplen]; exact pow_ne_zero k two_ne_zero) (hdlen ▸ hi)

theorem ifft_fft_roundtrip_witness :
    ifft (fft [1, 2, 3, 4]) = [(1 : ℂ), 2, 3, 4] := by
  have h := ifft_fft_roundtrip [1, 2, 3, 4] ⟨2, rfl⟩
  simpa using h

theorem resize_length (l : List ℂ) (n : ℕ) : (resize l n).length = n := by
  rw [resize]
  split
  · simp
    omega
  · simp
    omega

theorem fft_length (signal : List ℝ) :
    (fft signal).length = nextPowerOfTwo signal.length := by
  simp only [fft]
  rw [fftRecursive_length, resize_length]

/-- C9: `fft` returns a vector whose length is the smallest power of two that
is at least the input length and at least 1; applied to the empty signal it
returns the one-element zero vector, never an empty vector. -/
theorem fft_length_spec (signal : List ℝ) :
    (fft signal).length = nextPowerOfTwo signal.length ∧
    (∃ k, nextPowerOfTwo signal.length = 2 ^ k) ∧
    signal.length ≤ nextPowerOfTwo signal.length ∧
    1 ≤ nextPowerOfTwo signal.length ∧
    (∀ m, (∃ j, m = 2 ^ j) → signal.length ≤ m → nextPowerOfTwo signal.length ≤ m) ∧
    fft [] = [(0 : ℂ)] := by
  refine ⟨fft_length signal, nextPowerOfTwo_pow _, nextPowerOfTwo_ge _,
    nextPowerOfTwo_pos _, fun m hm hnm => nextPowerOfTwo_min _ m hm hnm, ?_⟩
  have h0 : nextPowerOfTwo (0 : ℕ) = 1 := by rw [nextPowerOfTwo, if_pos (by norm_num)]
  simp only [fft, List.map_nil, List.length_nil, h0]
  have hres : resize ([] : List ℂ) 1 = [0] := by
    rw [resize, if_neg (by norm_num)]
    simp
  rw [hres, fftRecursive, if_pos (by norm_num)]

theorem fft_length_spec_witness :
    (fft [1, 2, 3]).length = 4 ∧ nextPowerOfTwo 3 ≤ 4 := by
  have h := fft_length_spec [1, 2, 3]
  constructor
  · rw [h.1]
    show nextPowerOfTwo 3 = 4
    rw [nextPowerOfTwo, if_neg (by norm_num), powLoop, dif_pos (by norm_num),
      powLoop, dif_pos (by norm_num), powLoop, dif_neg (by norm_num)]
  · exact h.2.2.2.2.1 4 ⟨2, by norm_num⟩ (by norm_num)

/-- Lower 64 bits of `size_t` subtraction `a - b` (two's-complement wraparound
when `b > a`), for operands below `2^64`. -/
def sub64 (a b : ℕ) : ℕ := (a + 2 ^ 64 - b) % 2 ^ 64

/-- Bin index derived from a frequency:
`static_cast<size_t>(freq * spectrum.size() / sampleRate)` (truncation of a
nonnegative double toward zero). -/
def freqBin (freq : ℝ) (n : ℕ) (sampleRate : ℝ) : ℕ := ⌊freq * n / sampleRate⌋₊

/-- Zeroing condition of `bandPassFilter`'s loop at spectrum index `i`: the bin
is outside `[lowBin, highBin]` and not inside the strict mirror window
`(n - highBin, n - lowBin)` that the `continue` branch keeps. -/
def bandZeroed (n lowBin highBin i : ℕ) : Bool :=
  if i < lowBin ∨ i > highBin then
    if i > sub64 n highBin ∧ i < sub64 n lowBin then false else true
  else false

/-- Frequency-domain band-pass (`FourierAnalyzer::bandPassFilter`): forward
transform, zero every bin satisfying `bandZeroed`, inverse transform, and keep
the real components. -/
def bandPassFilter (signal : List ℝ) (lowFreq highFreq sampleRate : ℝ) : List ℝ :=
  let spectrum := fft signal
  let lowBin := freqBin lowFreq spectrum.length sampleRate
  let highBin := freqBin highFreq spectrum.length sampleRate
  let filtered := ifft ((List.range spectrum.length).map (fun i =>
    if bandZeroed spectrum.length lowBin highBin i then 0 else spectrum.getD i 0))
  filtered.map (fun c => c.re)

/-- C2 (falsified): on an 8-sample signal at `sampleRate = 8` with pass band
`[1 Hz, 2 Hz]` (within Nyquist `4 Hz`, so `lowBin = 1`, `highBin = 2`), bin
`k = 2` is kept while its mirror bin `N - k = 6` is zeroed: the strict
inequalities of the mirror window make the zeroing step asymmetric. -/
theorem bandPassFilter_zeroing_asymmetric :
    (fft (List.replicate 8 (1 : ℝ))).length = 8 ∧
    freqBin 1 8 8 = 1 ∧ freqBin 2 8 8 = 2 ∧
    bandZeroed 8 1 2 2 = false ∧ bandZeroed 8 1 2 (8 - 2) = true := by
  refine ⟨?_, ?_, ?_, by decide, by decide⟩
  · rw [fft_length]
    simp only [List.length_replicate]
    have h := nextPowerOfTwo_two_pow 3
    norm_num at h
    exact h
  · rw [freqBin]
    norm_num
  · rw [freqBin]
    norm_num

/-- Frequency-domain low-pass (`FourierAnalyzer::lowPassFilter`): zeroes bins
`i` with `cutoffBin ≤ i < spectrum.size() - cutoffBin` (`size_t` arithmetic).
The Lean list update drops the out-of-range writes the C++ loop performs when
`cutoffBin` exceeds the spectrum size; `lowPassAccessInBounds` captures
whether all of the loop's writes are in bounds. -/
def lowPassFilter (signal : List ℝ) (cutoffFreq sampleRate : ℝ) : List ℝ :=
  let spectrum := fft signal
  let cutoffBin := freqBin cutoffFreq spectrum.length sampleRate
  let filtered := ifft ((List.range spectrum.length).map (fun i =>
    if cutoffBin ≤ i ∧ i < sub64 spectrum.length cutoffBin then 0 else spectrum.getD i 0))
  filtered.map (fun c => c.re)

/-- Frequency-domain high-pass (`FourierAnalyzer::highPassFilter`): zeroes bins
`0..cutoffBin` and their mirrors `spectrum.size() - i`.  As with `lowPassFilter`
the Lean update drops writes that the C++ loop would perform out of bounds. -/
def highPassFilter (signal : List ℝ) (cutoffFreq sampleRate : ℝ) : List ℝ :=
  let spectrum := fft signal
  let cutoffBin := freqBin cutoffFreq spectrum.length sampleRate
  let filtered := ifft ((List.range spectrum.length).map (fun i =>
    if i ≤ cutoffBin ∨ (0 < i ∧ ∃ j, j ≤ cutoffBin ∧ 0 < j ∧ i = sub64 spectrum.length j)
    then 0 else spectrum.getD i 0))
  filtered.map (fun c => c.re)

/-- Every spectrum index written by `lowPassFilter`'s zeroing loop
(`for i = cutoffBin; i < spectrum.size() - cutoffBin`) is in bounds. -/
def lowPassAccessInBounds (signal : List ℝ) (cutoffFreq sampleRate : ℝ) : Prop :=
  ∀ i : ℕ, freqBin cutoffFreq (fft signal).length sampleRate ≤ i →
    i < sub64 (fft signal).length (freqBin cutoffFreq (fft signal).length sampleRate) →
    i < (fft signal).length

/-- Every spectrum index written by `highPassFilter`'s zeroing loop
(`for i = 0; i <= cutoffBin`, which writes `spectrum[i]` and, for `i > 0`,
`spectrum[spectrum.size() - i]`) is in bounds. -/
def highPassAccessInBounds (signal : List ℝ) (cutoffFreq sampleRate : ℝ) : Prop :=
  ∀ i : ℕ, i ≤ freqBin cutoffFreq (fft signal).length sampleRate →
    i < (fft signal).length ∧
      (0 < i → sub64 (fft signal).length i < (fft signal).length)

/-- C3 (falsified): with `cutoffFreq = 2`, `sampleRate = 1` on the one-sample
signal `[1]` (spectrum size 1), `cutoffBin = 2` and
`spectrum.size() - cutoffBin` wraps around to `2^64 - 1`, so the zeroing loop
of `lowPassFilter` writes `spectrum[2]` (and beyond) out of bounds: no
clamping takes place.  `highPassFilter` likewise writes `spectrum[1]` out of
bounds for `cutoffFreq = sampleRate = 1`. -/
theorem filter_oob_counterexample :
    ¬ lowPassAccessInBounds [1] 2 1 ∧ ¬ highPassAccessInBounds [1] 1 1 := by
  have hn : (fft [(1 : ℝ)]).length = 1 := by
    rw [fft_length]
    simp only [List.length_cons, List.length_nil]
    rw [nextPowerOfTwo, if_pos (by norm_num)]
  constructor
  · intro h
    have hbin : freqBin 2 (fft [(1 : ℝ)]).length 1 = 2 := by
      rw [hn, freqBin]
      norm_num
    have h2 := h 2 (le_of_eq hbin) ?_
    · rw [hn] at h2
      omega
    · rw [hbin, hn, sub64]
      norm_num
  · intro h
    have hbin : freqBin 1 (fft [(1 : ℝ)]).length 1 = 1 := by
      rw [hn, freqBin]
      norm_num
    have h1 := (h 1 (le_of_eq hbin.symm)).1
    rw [hn] at h1
    omega

/-- One sample of a one-sided spectrum (`FrequencyBin`). -/
structure FrequencyBin where
  frequency : ℝ
  magnitude : ℝ
  phase : ℝ

/-- A detected harmonic (`Harmonic`); `order` is 1 for the fundamental. -/
structure Harmonic where
  frequency : ℝ
  amplitude : ℝ
  phase : ℝ
  order : ℕ

/-- One-sided spectrum with metadata (`FrequencySpectrum`). -/
structure FrequencySpectrum where
  bins : List FrequencyBin
  sampleRate : ℝ
  frequencyResolution : ℝ
  maxFrequency : ℝ
  harmonics : List Harmonic

/-- Fundamental-search loop of `findHarmonics`: scan the given bins in order,
tracking `(maxMagnitude, fundamentalFreq)` from `(0, 0)` and updating on a
strict increase of magnitude. -/
def fundamentalStep (acc : ℝ × ℝ) (b : FrequencyBin) : ℝ × ℝ :=
  if b.magnitude > acc.1 then (b.magnitude, b.frequency) else acc

def fundamentalScan (bins : List FrequencyBin) : ℝ × ℝ :=
  bins.foldl fundamentalStep (0, 0)

/-- Closest-bin loop of `findHarmonics`, recursed over the remaining bins:
`acc = (closestBin, minDistance)` is updated on a strict decrease of distance;
`i` is the index of the head of `l` in the full bin list. -/
def closestAux (t : ℝ) : List FrequencyBin → ℕ → ℕ × ℝ → ℕ × ℝ
  | [], _, acc => acc
  | b :: rest, i, acc =>
      closestAux t rest (i + 1) (if |b.frequency - t| < acc.2 then (i, |b.frequency - t|) else acc)

/-- Closest-bin search of `findHarmonics`: start from bin 0 and scan bins
`1..` for a strictly smaller distance to the target frequency. -/
def closestBinScan (bins : List FrequencyBin) (t : ℝ) : ℕ × ℝ :=
  closestAux t (bins.drop 1) 1 (0, |(bins.headD ⟨0, 0, 0⟩).frequency - t|)

/-- Harmonic-harvest loop of `findHarmonics` for orders `order..10`: break once
the target frequency exceeds `maxFrequency`; accept the closest bin when it is
within tolerance and above threshold. -/
def harmonicSearch (s : FrequencySpectrum) (threshold fund tol : ℝ) (order : ℕ) :
    List Harmonic :=
  if 10 < order then []
  else
    if (order : ℝ) * fund > s.maxFrequency then []
    else
      let scan := closestBinScan s.bins ((order : ℝ) * fund)
      let rest := harmonicSearch s threshold fund tol (order + 1)
      if scan.2 ≤ tol ∧ (s.bins.getD scan.1 ⟨0, 0, 0⟩).magnitude ≥ threshold then
        ⟨(s.bins.getD scan.1 ⟨0, 0, 0⟩).frequency, (s.bins.getD scan.1 ⟨0, 0, 0⟩).magnitude,
          (s.bins.getD scan.1 ⟨0, 0, 0⟩).phase, order⟩ :: rest
      else rest
termination_by 11 - order

/-- Harmonic extraction (`FourierAnalyzer::findHarmonics`). -/
def findHarmonics (s : FrequencySpectrum) (threshold : ℝ) : List Harmonic :=
  if s.bins = [] then []
  else
    let scan := fundamentalScan (s.bins.drop 1)
    if scan.2 = 0 ∨ scan.1 < threshold then []
    else harmonicSearch s threshold scan.2 (s.frequencyResolution * 2) 1

/-- Windowing helper (`FourierAnalyzer::applyWindow`).  The Hanning window
coefficient is `0.5 - 0.5*cos(TWO_PI*i/(n-1))`; anything other than the three
named windows leaves the signal unchanged.  (For `n = 1` the C++ expression
divides zero by zero; the exact-arithmetic embedding uses Lean's `x / 0 = 0`
convention there — no claim depends on the window values.) -/
def applyWindow (signal : List ℝ) (windowType : String) : List ℝ :=
  let n := signal.length
  if windowType = "hanning" then
    signal.mapIdx (fun i v => v * (0.5 - 0.5 * Real.cos (2 * π * i / ((n - 1 : ℕ) : ℝ))))
  else if windowType = "hamming" then
    signal.mapIdx (fun i v => v * (0.54 - 0.46 * Real.cos (2 * π * i / ((n - 1 : ℕ) : ℝ))))
  else if windowType = "blackman" then
    signal.mapIdx (fun i v => v * (0.42 - 0.5 * Real.cos (2 * π * i / ((n - 1 : ℕ) : ℝ))
      + 0.08 * Real.cos (4 * π * i / ((n - 1 : ℕ) : ℝ))))
  else signal

theorem applyWindow_length (signal : List ℝ) (w : String) :
    (applyWindow signal w).length = signal.length := by
  rw [applyWindow]
  repeat' split
  all_goals simp

/-- Spectrum analysis (`FourierAnalyzer::getSpectrum`): Hanning window, FFT,
one-sided bins with `2/N` interior scaling (`1/N` at DC and Nyquist), then
harmonic extraction at the default threshold `0.1`.  The C++ early return for
an empty signal leaves the double fields uninitialised; the embedding returns
zeroes there. -/
def getSpectrum (signal : List ℝ) (sampleRate : ℝ) : FrequencySpectrum :=
  if signal = [] then ⟨[], 0, 0, 0, []⟩
  else
    let windowedSignal := applyWindow signal "hanning"
    let fftResult := fft windowedSignal
    let fftSize := fftResult.length
    let frequencyResolution := sampleRate / fftSize
    let maxFrequency := sampleRate / 2
    let numBins := fftSize / 2 + 1
    let bins := (List.range numBins).map (fun (i : ℕ) =>
      let frequency := (i : ℝ) * frequencyResolution
      let magnitude := Complex.abs (fftResult.getD i 0)
      let phase := (fftResult.getD i 0).arg
      let scaled := if 0 < i ∧ i < fftSize / 2 then magnitude * (2 / fftSize)
        else magnitude / fftSize
      FrequencyBin.mk frequency scaled phase)
    let base : FrequencySpectrum :=
      ⟨bins, sampleRate, frequencyResolution, maxFrequency, []⟩
    ⟨bins, sampleRate, frequencyResolution, maxFrequency, findHarmonics base 0.1⟩

theorem foldl_fundamentalStep_spec (l : List FrequencyBin) :
    ∀ acc : ℝ × ℝ,
      acc.1 ≤ (l.foldl fundamentalStep acc).1 ∧
      (∀ b ∈ l, b.magnitude ≤ (l.foldl fundamentalStep acc).1) ∧
      (l.foldl fundamentalStep acc = acc ∨
        ∃ b ∈ l, l.foldl fundamentalStep acc = (b.magnitude, b.frequency)) := by
  induction l with
  | nil => intro acc; simp
  | cons b rest ih =>
    intro acc
    simp only [List.foldl_cons]
    obtain ⟨ih1, ih2, ih3⟩ := ih (fundamentalStep acc b)
    have hstep : acc.1 ≤ (fundamentalStep acc b).1 ∧ b.magnitude ≤ (fundamentalStep acc b).1 := by
      rw [fundamentalStep]
      split
      · constructor
        · simp only []
          linarith [show b.magnitude > acc.1 by assumption]
        · simp
      · constructor
        · exact le_rfl
        · linarith [show ¬ b.magnitude > acc.1 by assumption]
    refine ⟨le_trans hstep.1 ih1, ?_, ?_⟩
    · intro c hc
      rcases List.mem_cons.mp hc with rfl | hc2
      · exact le_trans hstep.2 ih1
      · exact ih2 c hc2
    · rcases ih3 with heq | ⟨c, hc, heq⟩
      · rw [heq, fundamentalStep]
        split
        · right
          exact ⟨b, List.mem_cons_self b rest, rfl⟩
        · left
          rfl
      · right
        exact ⟨c, List.mem_cons_of_mem b hc, heq⟩

theorem closestAux_spec (t : ℝ) (l : List FrequencyBin) :
    ∀ (i : ℕ) (acc : ℕ × ℝ),
      (closestAux t l i acc).2 ≤ acc.2 ∧
      (∀ j, j < l.length → (closestAux t l i acc).2 ≤ |(l.getD j ⟨0, 0, 0⟩).frequency - t|) ∧
      (closestAux t l i acc = acc ∨
        ∃ j, j < l.length ∧
          closestAux t l i acc = (i + j, |(l.getD j ⟨0, 0, 0⟩).frequency - t|)) := by
  induction l with
  | nil => intro i acc; simp [closestAux]
  | cons b rest ih =>
    intro i acc
    rw [closestAux]
    by_cases hb : |b.frequency - t| < acc.2
    · rw [if_pos hb]
      obtain ⟨ih1, ih2, ih3⟩ := ih (i + 1) (i, |b.frequency - t|)
      refine ⟨le_trans ih1 (le_of_lt hb), ?_, ?_⟩
      · intro j hj
        cases j with
        | zero => simpa using ih1
        | succ j => exact ih2 j (by simpa using hj)
      · rcases ih3 with heq | ⟨j, hj, heq⟩
        · right
          exact ⟨0, by simp, by simpa using heq⟩
        · right
          refine ⟨j + 1, by simpa using hj, ?_⟩
          rw [heq]
          simp only [List.getD_cons_succ]
          congr 1
          omega
    · rw [if_neg hb]
      obtain ⟨ih1, ih2, ih3⟩ := ih (i + 1) acc
      refine ⟨ih1, ?_, ?_⟩
      · intro j hj
        cases j with
        | zero =>
          simp only [List.getD_cons_zero]
          exact le_trans ih1 (not_lt.mp hb)
        | succ j => exact ih2 j (by simpa using hj)
      · rcases ih3 with heq | ⟨j, hj, heq⟩
        · left
          exact heq
        · right
          refine ⟨j + 1, by simpa using hj, ?_⟩
          rw [heq]
          simp only [List.getD_cons_succ]
          congr 1
          omega

theorem closestBinScan_spec (bins : List FrequencyBin) (t : ℝ) (hb : bins ≠ []) :
    (closestBinScan bins t).1 < bins.length ∧
    (closestBinScan bins t).2
        = |(bins.getD (closestBinScan bins t).1 ⟨0, 0, 0⟩).frequency - t| ∧
    ∀ j, j < bins.length →
      (closestBinScan bins t).2 ≤ |(bins.getD j ⟨0, 0, 0⟩).frequency - t| := by
  obtain ⟨b0, rest, rfl⟩ := List.exists_cons_of_ne_nil hb
  rw [closestBinScan]
  simp only [List.drop_one, List.tail_cons, List.headD_cons]
  obtain ⟨h1, h2, h3⟩ := closestAux_spec t rest 1 (0, |b0.frequency - t|)
  rcases h3 with heq | ⟨j, hj, heq⟩
  · rw [heq]
    refine ⟨by simp, by simp, ?_⟩
    intro j hj
    cases j with
    | zero => simp
    | succ j =>
      simp only [List.getD_cons_succ]
      have := h2 j (by simpa using hj)
      rw [heq] at this
      simpa using this
  · rw [heq]
    have h1j : 1 + j = j + 1 := by omega
    refine ⟨?_, ?_, ?_⟩
    · simp only [h1j, List.length_cons]
      omega
    · simp only [h1j, List.getD_cons_succ]
    · intro j2 hj2
      cases j2 with
      | zero =>
        simp only [List.getD_cons_zero]
        have := h1
        rw [heq] at this
        simpa using this
      | succ j2 =>
        simp only [List.getD_cons_succ]
        have := h2 j2 (by simpa using hj2)
        rw [heq] at this
        simpa using this

/-- Acceptance test of `findHarmonics` for harmonic order `o`: wrap the
closest bin as a `Harmonic` when it is within tolerance and above threshold. -/
def harmonicAccept (s : FrequencySpectrum) (θ tol fund : ℝ) (o : ℕ) : Option Harmonic :=
  if (closestBinScan s.bins ((o : ℝ) * fund)).2 ≤ tol ∧
      (s.bins.getD (closestBinScan s.bins ((o : ℝ) * fund)).1 ⟨0, 0, 0⟩).magnitude ≥ θ then
    some ⟨(s.bins.getD (closestBinScan s.bins ((o : ℝ) * fund)).1 ⟨0, 0, 0⟩).frequency,
          (s.bins.getD (closestBinScan s.bins ((o : ℝ) * fund)).1 ⟨0, 0, 0⟩).magnitude,
          (s.bins.getD (closestBinScan s.bins ((o : ℝ) * fund)).1 ⟨0, 0, 0⟩).phase, o⟩
  else none

theorem harmonicSearch_eq_takeWhile (s : FrequencySpectrum) (θ fund tol : ℝ) :
    ∀ (cnt order : ℕ), order + cnt = 11 → 1 ≤ order →
      harmonicSearch s θ fund tol order =
        ((List.range' order cnt).takeWhile
            (fun (o : ℕ) => decide ((o : ℝ) * fund ≤ s.maxFrequency))).filterMap
          (harmonicAccept s θ tol fund) := by
  intro cnt
  induction cnt with
  | zero =>
    intro order h11 h1
    rw [harmonicSearch, if_pos (by omega)]
    simp
  | succ cnt ih =>
    intro order h11 h1
    rw [harmonicSearch, if_neg (by omega), List.range'_succ]
    by_cases hmax : (order : ℝ) * fund > s.maxFrequency
    · rw [if_pos hmax]
      have htw : List.takeWhile (fun (o : ℕ) => decide ((o : ℝ) * fund ≤ s.maxFrequency))
          (order :: List.range' (order + 1) cnt) = [] := by
        rw [List.takeWhile_cons]
        simp [not_le.mpr hmax]
      rw [htw]
      simp
    · rw [if_neg hmax]
      have htw : List.takeWhile (fun (o : ℕ) => decide ((o : ℝ) * fund ≤ s.maxFrequency))
          (order :: List.range' (order + 1) cnt)
          = order :: List.takeWhile (fun (o : ℕ) => decide ((o : ℝ) * fund ≤ s.maxFrequency))
              (List.range' (order + 1) cnt) := by
        rw [List.takeWhile_cons]
        simp [not_lt.mp hmax]
      rw [htw]
      by_cases hacc : (closestBinScan s.bins ((order : ℝ) * fund)).2 ≤ tol ∧
          (s.bins.getD (closestBinScan s.bins ((order : ℝ) * fund)).1 ⟨0, 0, 0⟩).magnitude ≥ θ
      · rw [if_pos hacc]
        have haccEq : harmonicAccept s θ tol fund order
            = some ⟨(s.bins.getD (closestBinScan s.bins ((order : ℝ) * fund)).1
                ⟨0, 0, 0⟩).frequency,
              (s.bins.getD (closestBinScan s.bins ((order : ℝ) * fund)).1 ⟨0, 0, 0⟩).magnitude,
              (s.bins.getD (closestBinScan s.bins ((order : ℝ) * fund)).1 ⟨0, 0, 0⟩).phase,
              order⟩ := by
          rw [harmonicAccept, if_pos hacc]
        rw [List.filterMap_cons_some haccEq, ← ih (order + 1) (by omega) (by omega)]
      · rw [if_neg hacc]
        have haccEq : harmonicAccept s θ tol fund order = none := by
          rw [harmonicAccept, if_neg hacc]
        rw [List.filterMap_cons_none haccEq]
        exact ih (order + 1) (by omega) (by omega)

/-- C5: `findHarmonics` takes as fundamental the non-DC bin of maximum
magnitude (first scan with a `(0, 0)` floor), returns the empty list when the
fundamental frequency is 0 or its magnitude is below the threshold, and
otherwise harvests orders 1..10, stopping at the first order whose target
`order·fundamental` exceeds `maxFrequency`, accepting the bin nearest to the
target by absolute frequency distance exactly when that distance is at most
`2·frequencyResolution` and the bin's magnitude is at least the threshold. -/
theorem findHarmonics_spec (s : FrequencySpectrum) (θ : ℝ) (hb : s.bins ≠ []) :
    (∀ b ∈ s.bins.drop 1, b.magnitude ≤ (fundamentalScan (s.bins.drop 1)).1) ∧
    (fundamentalScan (s.bins.drop 1) = (0, 0) ∨
      ∃ b ∈ s.bins.drop 1,
        fundamentalScan (s.bins.drop 1) = (b.magnitude, b.frequency)) ∧
    (∀ t : ℝ,
      (closestBinScan s.bins t).1 < s.bins.length ∧
      (closestBinScan s.bins t).2
          = |(s.bins.getD (closestBinScan s.bins t).1 ⟨0, 0, 0⟩).frequency - t| ∧
      ∀ j, j < s.bins.length →
        (closestBinScan s.bins t).2 ≤ |(s.bins.getD j ⟨0, 0, 0⟩).frequency - t|) ∧
    ((fundamentalScan (s.bins.drop 1)).2 = 0 ∨ (fundamentalScan (s.bins.drop 1)).1 < θ →
      findHarmonics s θ = []) ∧
    (¬((fundamentalScan (s.bins.drop 1)).2 = 0 ∨ (fundamentalScan (s.bins.drop 1)).1 < θ) →
      findHarmonics s θ =
        ((List.range' 1 10).takeWhile
            (fun (o : ℕ) => decide ((o : ℝ) * (fundamentalScan (s.bins.drop 1)).2
              ≤ s.maxFrequency))).filterMap
          (harmonicAccept s θ (s.frequencyResolution * 2) (fundamentalScan (s.bins.drop 1)).2)) := by
  refine ⟨(foldl_fundamentalStep_spec (s.bins.drop 1) (0, 0)).2.1,
    (foldl_fundamentalStep_spec (s.bins.drop 1) (0, 0)).2.2,
    fun t => closestBinScan_spec s.bins t hb, ?_, ?_⟩
  · intro hguard
    rw [findHarmonics, if_neg hb]
    simp only [fundamentalScan] at hguard ⊢
    rw [if_pos hguard]
  · intro hguard
    rw [findHarmonics, if_neg hb]
    simp only [fundamentalScan] at hguard ⊢
    rw [if_neg hguard]
    exact harmonicSearch_eq_takeWhile s θ _ _ 10 1 rfl le_rfl

theorem findHarmonics_spec_witness :
    findHarmonics ⟨[⟨0, 0, 0⟩, ⟨1, 2, 0⟩], 4, 1, 2, []⟩ 5 = [] := by
  have h := (findHarmonics_spec ⟨[⟨0, 0, 0⟩, ⟨1, 2, 0⟩], 4, 1, 2, []⟩ 5 (by simp)).2.2.2.1
  apply h
  right
  norm_num [fundamentalScan, fundamentalStep]

/-- C4: for a non-empty signal, `getSpectrum` returns a one-sided spectrum of
exactly `N/2 + 1` bins where `N` is the padded FFT size of the windowed
signal; bin `i` has frequency `i·sampleRate/N`; interior bins carry the raw
FFT magnitude scaled by `2/N` while DC and Nyquist are scaled by `1/N`;
`frequencyResolution = sampleRate/N` and `maxFrequency = sampleRate/2`. -/
theorem getSpectrum_spec (signal : List ℝ) (sampleRate : ℝ) (h : signal ≠ []) :
    (fft (applyWindow signal "hanning")).length = nextPowerOfTwo signal.length ∧
    (getSpectrum signal sampleRate).bins.length
        = (fft (applyWindow signal "hanning")).length / 2 + 1 ∧
    (getSpectrum signal sampleRate).sampleRate = sampleRate ∧
    (getSpectrum signal sampleRate).frequencyResolution
        = sampleRate / ((fft (applyWindow signal "hanning")).length : ℝ) ∧
    (getSpectrum signal sampleRate).maxFrequency = sampleRate / 2 ∧
    ∀ i, i < (fft (applyWindow signal "hanning")).length / 2 + 1 →
      ((getSpectrum signal sampleRate).bins.getD i ⟨0, 0, 0⟩).frequency
          = (i : ℝ) * (sampleRate / ((fft (applyWindow signal "hanning")).length : ℝ)) ∧
      ((getSpectrum signal sampleRate).bins.getD i ⟨0, 0, 0⟩).magnitude
          = (if 0 < i ∧ i < (fft (applyWindow signal "hanning")).length / 2 then
               Complex.abs ((fft (applyWindow signal "hanning")).getD i 0)
                 * (2 / ((fft (applyWindow signal "hanning")).length : ℝ))
             else
               Complex.abs ((fft (applyWindow signal "hanning")).getD i 0)
                 / ((fft (applyWindow signal "hanning")).length : ℝ)) := by
  refine ⟨?_, ?_, ?_, ?_, ?_, ?_⟩
  · rw [fft_length, applyWindow_length]
  · simp only [getSpectrum, if_neg h]
    simp
  · simp only [getSpectrum, if_neg h]
  · simp only [getSpectrum, if_neg h]
  · simp only [getSpectrum, if_neg h]
  · intro i hi
    simp only [getSpectrum, if_neg h]
    rw [getD_map_range _ i _ _ hi]
    exact ⟨rfl, rfl⟩

theorem getSpectrum_spec_witness :
    (getSpectrum [1] 2).maxFrequency = 1 := by
  have h := (getSpectrum_spec [1] 2 (by simp)).2.2.2.2.1
  rw [h]
  norm_num

end FourierAnalyzer

/-- Abstract wave interface (`WaveFunction`): virtual `evaluate(x, t)` plus the
amplitude/frequency/phase getters every variant stores. -/
structure WaveFunction where
  evaluate : ℝ → ℝ → ℝ
  amplitude : ℝ
  frequency : ℝ
  phase : ℝ

instance : Inhabited WaveFunction := ⟨⟨fun _ _ => 0, 0, 0, 0⟩⟩

/-- `SinusoidalWave::evaluate`: `A·sin(TWO_PI·f·t + φ·DEG_TO_RAD)`; `x` unused. -/
def SinusoidalWave (amplitude frequency phase : ℝ) : WaveFunction :=
  ⟨fun _x t => amplitude * Real.sin (2 * π * frequency * t + phase * (π / 180)),
    amplitude, frequency, phase⟩

/-- `CosineWave::evaluate`. -/
def CosineWave (amplitude frequency phase : ℝ) : WaveFunction :=
  ⟨fun _x t => amplitude * Real.cos (2 * π * frequency * t + phase * (π / 180)),
    amplitude, frequency, phase⟩

/-- `SquareWave::evaluate`: sign of the sine, ties to `+A`. -/
def SquareWave (amplitude frequency phase : ℝ) : WaveFunction :=
  ⟨fun _x t =>
      amplitude * (if Real.sin (2 * π * frequency * t + phase * (π / 180)) ≥ 0 then 1 else -1),
    amplitude, frequency, phase⟩

/-- `TriangularWave::evaluate`: piecewise linear on the fractional part of
`f·t + φ/360`. -/
def TriangularWave (amplitude frequency phase : ℝ) : WaveFunction :=
  ⟨fun _x t =>
      let arg := frequency * t + phase / 360
      let fractionalPart := arg - ↑⌊arg⌋
      if fractionalPart < 0.25 then amplitude * 4 * fractionalPart
      else if fractionalPart < 0.75 then amplitude * (2 - 4 * fractionalPart)
      else amplitude * (4 * fractionalPart - 4),
    amplitude, frequency, phase⟩

/-- `SawtoothWave::evaluate`: `A·(2·frac − 1)`. -/
def SawtoothWave (amplitude frequency phase : ℝ) : WaveFunction :=
  ⟨fun _x t =>
      let arg := frequency * t + phase / 360
      let fractionalPart := arg - ↑⌊arg⌋
      amplitude * (2 * fractionalPart - 1),
    amplitude, frequency, phase⟩

namespace WaveEngine

/-- `WaveEngine::removeWave` (the engine's observable state is its
insertion-ordered wave list): erase the wave at `index` when in range,
otherwise do nothing. -/
def removeWave (waves : List WaveFunction) (index : ℕ) : List WaveFunction :=
  if index < waves.length then waves.eraseIdx index else waves

/-- `WaveEngine::getWave`: the wave at `index` when in range, otherwise the
absent value (`nullptr`). -/
def getWave (waves : List WaveFunction) (index : ℕ) : Option WaveFunction :=
  if h : index < waves.length then some (waves.get ⟨index, h⟩) else none

/-- `WaveEngine::getMaxAmplitude`: fold `max` over the waves' amplitudes,
starting from `0.0`. -/
def getMaxAmplitude (waves : List WaveFunction) : ℝ :=
  waves.foldl (fun maxAmp w => max maxAmp w.amplitude) 0

/-- C8: out-of-range `removeWave` is a no-op and out-of-range `getWave` is
`none`; in range, `removeWave` removes exactly the `index`-th wave keeping the
others in order, and `getWave` returns the `index`-th wave. -/
theorem removeWave_getWave_spec (waves : List WaveFunction) (index : ℕ) :
    (waves.length ≤ index → removeWave waves index = waves ∧ getWave waves index = none) ∧
    ∀ (h : index < waves.length),
      removeWave waves index = waves.take index ++ waves.drop (index + 1) ∧
      (removeWave waves index).length = waves.length - 1 ∧
      getWave waves index = some (waves.get ⟨index, h⟩) := by
  constructor
  · intro hle
    rw [removeWave, if_neg (by omega), getWave, dif_neg (by omega)]
    exact ⟨rfl, rfl⟩
  · intro h
    rw [removeWave, if_pos h, getWave, dif_pos h]
    refine ⟨List.eraseIdx_eq_take_drop_succ waves index, ?_, rfl⟩
    rw [List.length_eraseIdx]
    simp [h]

theorem removeWave_getWave_spec_witness :
    removeWave [SinusoidalWave 1 1 0] 5 = [SinusoidalWave 1 1 0] ∧
    getWave [SinusoidalWave 1 1 0] 5 = none :=
  (removeWave_getWave_spec [SinusoidalWave 1 1 0] 5).1 (by simp)

theorem foldl_max_spec (l : List WaveFunction) :
    ∀ acc : ℝ,
      acc ≤ l.foldl (fun maxAmp w => max maxAmp w.amplitude) acc ∧
      (∀ w ∈ l, w.amplitude ≤ l.foldl (fun maxAmp w => max maxAmp w.amplitude) acc) ∧
      (l.foldl (fun maxAmp w => max maxAmp w.amplitude) acc = acc ∨
        ∃ w ∈ l, l.foldl (fun maxAmp w => max maxAmp w.amplitude) acc = w.amplitude) := by
  induction l with
  | nil => intro acc; simp
  | cons w0 rest ih =>
    intro acc
    simp only [List.foldl_cons]
    obtain ⟨ih1, ih2, ih3⟩ := ih (max acc w0.amplitude)
    refine ⟨le_trans (le_max_left _ _) ih1, ?_, ?_⟩
    · intro w hw
      rcases List.mem_cons.mp hw with rfl | hw2
      · exact le_trans (le_max_right _ _) ih1
      · exact ih2 w hw2
    · rcases ih3 with heq | ⟨w, hw, heq⟩
      · rcases max_choice acc w0.amplitude with hmax | hmax
        · left
          rw [heq, hmax]
        · right
          exact ⟨w0, List.mem_cons_self w0 rest, by rw [heq, hmax]⟩
      · right
        exact ⟨w, List.mem_cons_of_mem w0 hw, heq⟩

/-- C10: `getMaxAmplitude` is never negative: it is the maximum of `0.0` and
all owned waves' amplitudes — `0.0` for an empty engine and `0.0` whenever
every amplitude is negative. -/
theorem getMaxAmplitude_spec (waves : List WaveFunction) :
    0 ≤ getMaxAmplitude waves ∧
    (∀ w ∈ waves, w.amplitude ≤ getMaxAmplitude waves) ∧
    (getMaxAmplitude waves = 0 ∨ ∃ w ∈ waves, getMaxAmplitude waves = w.amplitude) ∧
    (waves = [] → getMaxAmplitude waves = 0) ∧
    ((∀ w ∈ waves, w.amplitude < 0) → getMaxAmplitude waves = 0) := by
  obtain ⟨h1, h2, h3⟩ := foldl_max_spec waves 0
  refine ⟨h1, h2, h3, ?_, ?_⟩
  · rintro rfl
    rfl
  · intro hneg
    rcases h3 with heq | ⟨w, hw, heq⟩
    · exact heq
    · exfalso
      have := hneg w hw
      rw [heq] at h1
      linarith

theorem getMaxAmplitude_spec_witness :
    getMaxAmplitude [SinusoidalWave (-3) 1 0] = 0 := by
  apply (getMaxAmplitude_spec [SinusoidalWave (-3) 1 0]).2.2.2.2
  intro w hw
  rw [List.mem_singleton] at hw
  rw [hw]
  norm_num [SinusoidalWave]

/-- Accumulator step of `calculateBeatFrequency`'s minimum-gap loop:
`if (diff > 0 && diff < minDiff) minDiff = diff`, with the initial
`DBL_MAX` sentinel modelled as `none`. -/
def minPosStep (acc : Option ℝ) (diff : ℝ) : Option ℝ :=
  match acc with
  | none => if diff > 0 then some diff else none
  | some m => if diff > 0 ∧ diff < m then some diff else some m

/-- The waves' frequencies after `std::sort` (ascending). -/
def sortedFrequencies (waves : List WaveFunction) : List ℝ :=
  (waves.map (fun w => w.frequency)).mergeSort (fun a b => decide (a ≤ b))

/-- Consecutive differences `frequencies[i] - frequencies[i-1]` scanned by
`calculateBeatFrequency`'s loop. -/
def frequencyGaps (waves : List WaveFunction) : List ℝ :=
  List.zipWith (fun a b => a - b) ((sortedFrequencies waves).drop 1) (sortedFrequencies waves)

/-- `WaveEngine::calculateBeatFrequency`: sort the wave frequencies ascending
and return the minimum positive gap between consecutive values, `0` if there
are fewer than two waves or no positive gap exists (`DBL_MAX` sentinel
modelled as `none`). -/
def calculateBeatFrequency (waves : List WaveFunction) : ℝ :=
  if waves.length < 2 then 0
  else
    match (frequencyGaps waves).foldl minPosStep none with
    | some m => m
    | none => 0

/-- Resonance scan of `detectPhenomenon`: some pair of frequencies differs by
less than `0.01` (the C++ double loop over index pairs `i < j`). -/
def hasCloseFrequencies : List ℝ → Prop
  | [] => False
  | f :: rest => (∃ g ∈ rest, |f - g| < 0.01) ∨ hasCloseFrequencies rest

/-- `WaveEngine::detectPhenomenon`: decision chain over the wave count, the
beat frequency, and the resonance scan. -/
def detectPhenomenon (waves : List WaveFunction) : String :=
  if waves.length = 0 then "No waves"
  else if waves.length = 1 then "Single wave"
  else
    let beatFreq := calculateBeatFrequency waves
    if beatFreq > 0 ∧ beatFreq < 2 then "Beating"
    else if hasCloseFrequencies (waves.map (fun w => w.frequency)) then "Resonance"
    else "Superposition"

theorem minPosStep_eq_none (acc : Option ℝ) (g : ℝ) :
    minPosStep acc g = none ↔ acc = none ∧ ¬ 0 < g := by
  cases acc with
  | none =>
    rw [minPosStep]
    by_cases h : g > 0
    · rw [if_pos h]
      constructor
      · intro hc
        exact absurd hc (by simp)
      · rintro ⟨-, hng⟩
        exact absurd h hng
    · rw [if_neg h]
      constructor
      · intro _
        exact ⟨rfl, h⟩
      · intro _
        rfl
  | some m =>
    rw [minPosStep]
    split <;> simp

theorem minPosStep_cases (acc : Option ℝ) (g : ℝ) :
    (minPosStep acc g = acc ∧ (0 < g → ∃ m0, acc = some m0 ∧ m0 ≤ g)) ∨
    (minPosStep acc g = some g ∧ 0 < g ∧ ∀ m0, acc = some m0 → g ≤ m0) := by
  cases acc with
  | none =>
    rw [minPosStep]
    by_cases h : g > 0
    · right
      rw [if_pos h]
      exact ⟨rfl, h, by simp⟩
    · left
      rw [if_neg h]
      exact ⟨rfl, fun hg => absurd hg h⟩
  | some m =>
    rw [minPosStep]
    by_cases h : g > 0 ∧ g < m
    · right
      rw [if_pos h]
      exact ⟨rfl, h.1, fun m0 hm0 => by
        injection hm0 with hm0
        rw [← hm0]
        exact le_of_lt h.2⟩
    · left
      rw [if_neg h]
      refine ⟨rfl, fun hg => ⟨m, rfl, ?_⟩⟩
      by_contra hlt
      exact h ⟨hg, lt_of_not_le hlt⟩

theorem foldl_minPosStep_spec (l : List ℝ) :
    ∀ acc : Option ℝ,
      (l.foldl minPosStep acc = none ↔ acc = none ∧ ∀ g ∈ l, ¬ 0 < g) ∧
      ∀ m : ℝ, l.foldl minPosStep acc = some m →
        (acc = some m ∨ (m ∈ l ∧ 0 < m)) ∧
        (∀ m0, acc = some m0 → m ≤ m0) ∧
        (∀ g ∈ l, 0 < g → m ≤ g) := by
  induction l with
  | nil =>
    intro acc
    refine ⟨by simp, ?_⟩
    intro m hm
    simp only [List.foldl_nil] at hm
    refine ⟨Or.inl hm, fun m0 hm0 => ?_, by simp⟩
    injection (hm0.symm.trans hm) with h2
    exact le_of_eq h2.symm
  | cons g0 rest ih =>
    intro acc
    simp only [List.foldl_cons]
    obtain ⟨ihn, ihs⟩ := ih (minPosStep acc g0)
    constructor
    · rw [ihn, minPosStep_eq_none]
      constructor
      · rintro ⟨⟨hacc, hg0⟩, hrest⟩
        refine ⟨hacc, fun g hg => ?_⟩
        rcases List.mem_cons.mp hg with rfl | hg2
        · exact hg0
        · exact hrest g hg2
      · rintro ⟨hacc, hall⟩
        exact ⟨⟨hacc, hall g0 (List.mem_cons_self g0 rest)⟩,
          fun g hg => hall g (List.mem_cons_of_mem g0 hg)⟩
    · intro m hm
      obtain ⟨hattr, hmono, hmin⟩ := ihs m hm
      rcases minPosStep_cases acc g0 with ⟨hstep, hinfo⟩ | ⟨hstep, hg0, hle⟩
      · -- step kept the accumulator
        refine ⟨?_, ?_, ?_⟩
        · rcases hattr with heq | ⟨hmem, hpos⟩
          · left
            rw [← hstep]
            exact heq
          · right
            exact ⟨List.mem_cons_of_mem g0 hmem, hpos⟩
        · intro m0 hm0
          exact hmono m0 (by rw [hstep, hm0])
        · intro g hg hgpos
          rcases List.mem_cons.mp hg with rfl | hg2
          · obtain ⟨m0, hm0, hm0le⟩ := hinfo hgpos
            exact le_trans (hmono m0 (by rw [hstep, hm0])) hm0le
          · exact hmin g hg2 hgpos
      · -- step replaced the accumulator by g0
        refine ⟨?_, ?_, ?_⟩
        · rcases hattr with heq | ⟨hmem, hpos⟩
          · right
            rw [hstep] at heq
            injection heq with heq
            exact ⟨by rw [← heq]; exact List.mem_cons_self g0 rest, by rw [← heq]; exact hg0⟩
          · right
            exact ⟨List.mem_cons_of_mem g0 hmem, hpos⟩
        · intro m0 hm0
          exact le_trans (hmono g0 hstep) (hle m0 hm0)
        · intro g hg hgpos
          rcases List.mem_cons.mp hg with rfl | hg2
          · exact hmono g hstep
          · exact hmin g hg2 hgpos

theorem hasCloseFrequencies_iff (l : List ℝ) :
    hasCloseFrequencies l ↔
      ∃ i j, i < j ∧ j < l.length ∧ |l.getD i 0 - l.getD j 0| < 0.01 := by
  induction l with
  | nil => simp [hasCloseFrequencies]
  | cons f rest ih =>
    simp only [hasCloseFrequencies, ih]
    constructor
    · rintro (⟨g, hg, hfg⟩ | ⟨i, j, hij, hjl, h⟩)
      · obtain ⟨j, hj, hgj⟩ := List.mem_iff_getElem.mp hg
        refine ⟨0, j + 1, by omega, by simpa using hj, ?_⟩
        rw [List.getD_cons_zero, List.getD_cons_succ, List.getD_eq_getElem?_getD,
          List.getElem?_eq_getElem hj]
        simpa [hgj] using hfg
      · exact ⟨i + 1, j + 1, by omega, by simpa using hjl,
          by simpa [List.getD_cons_succ] using h⟩
    · rintro ⟨i, j, hij, hjl, h⟩
      cases i with
      | zero =>
        obtain ⟨j2, rfl⟩ : ∃ j2, j = j2 + 1 := ⟨j - 1, by omega⟩
        left
        have hj2 : j2 < rest.length := by simpa using hjl
        refine ⟨rest.getD j2 0, ?_, ?_⟩
        · rw [List.getD_eq_getElem?_getD, List.getElem?_eq_getElem hj2]
          simp only [Option.getD_some]
          exact List.getElem_mem hj2
        · simpa [List.getD_cons_zero, List.getD_cons_succ] using h
      | succ i2 =>
        obtain ⟨j2, rfl⟩ : ∃ j2, j = j2 + 1 := ⟨j - 1, by omega⟩
        right
        exact ⟨i2, j2, by omega, by simpa using hjl,
          by simpa [List.getD_cons_succ] using h⟩

theorem calculateBeatFrequency_spec (waves : List WaveFunction) (h2 : 2 ≤ waves.length) :
    ((∀ g ∈ frequencyGaps waves, ¬ 0 < g) → calculateBeatFrequency waves = 0) ∧
    ((∃ g ∈ frequencyGaps waves, 0 < g) →
      calculateBeatFrequency waves ∈ frequencyGaps waves ∧
      0 < calculateBeatFrequency waves ∧
      ∀ g ∈ frequencyGaps waves, 0 < g → calculateBeatFrequency waves ≤ g) := by
  rw [calculateBeatFrequency, if_neg (by omega)]
  cases hfold : (frequencyGaps waves).foldl minPosStep none with
  | none =>
    simp only [hfold]
    refine ⟨fun _ => trivial, ?_⟩
    rintro ⟨g, hg, hgpos⟩
    have := ((foldl_minPosStep_spec (frequencyGaps waves) none).1.mp hfold).2 g hg
    exact absurd hgpos this
  | some m =>
    simp only [hfold]
    obtain ⟨hattr, _, hmin⟩ := (foldl_minPosStep_spec (frequencyGaps waves) none).2 m hfold
    have hmem : m ∈ frequencyGaps waves ∧ 0 < m := by
      rcases hattr with heq | h
      · exact absurd heq (by simp)
      · exact h
    constructor
    · intro hall
      exact absurd hmem.2 (hall m hmem.1)
    · intro _
      exact ⟨hmem.1, hmem.2, hmin⟩

/-- C6: `detectPhenomenon` returns, in decision order, "No waves" for 0 waves,
"Single wave" for 1 wave, "Beating" when the beat frequency is strictly
between 0 and 2 Hz, else "Resonance" when two wave frequencies differ by less
than 0.01 Hz, else "Superposition"; the beat frequency is the minimum positive
gap between consecutive values of the ascending-sorted wave frequencies, and 0
with fewer than two waves or when no positive gap exists. -/
theorem detectPhenomenon_spec (waves : List WaveFunction) :
    (waves.length = 0 → detectPhenomenon waves = "No waves") ∧
    (waves.length = 1 → detectPhenomenon waves = "Single wave") ∧
    (waves.length < 2 → calculateBeatFrequency waves = 0) ∧
    (sortedFrequencies waves).Perm (waves.map fun w => w.frequency) ∧
    List.Pairwise (fun a b : ℝ => a ≤ b) (sortedFrequencies waves) ∧
    (2 ≤ waves.length →
      ((∀ g ∈ frequencyGaps waves, ¬ 0 < g) → calculateBeatFrequency waves = 0) ∧
      ((∃ g ∈ frequencyGaps waves, 0 < g) →
        calculateBeatFrequency waves ∈ frequencyGaps waves ∧
        0 < calculateBeatFrequency waves ∧
        ∀ g ∈ frequencyGaps waves, 0 < g → calculateBeatFrequency waves ≤ g)) ∧
    (2 ≤ waves.length →
      (0 < calculateBeatFrequency waves ∧ calculateBeatFrequency waves < 2 →
        detectPhenomenon waves = "Beating") ∧
      (¬(0 < calculateBeatFrequency waves ∧ calculateBeatFrequency waves < 2) →
        ((∃ i j, i < j ∧ j < waves.length ∧
            |(waves.map (fun w => w.frequency)).getD i 0 -
              (waves.map (fun w => w.frequency)).getD j 0| < 0.01) →
          detectPhenomenon waves = "Resonance") ∧
        (¬(∃ i j, i < j ∧ j < waves.length ∧
            |(waves.map (fun w => w.frequency)).getD i 0 -
              (waves.map (fun w => w.frequency)).getD j 0| < 0.01) →
          detectPhenomenon waves = "Superposition"))) := by
  have hlenmap : (waves.map fun w => w.frequency).length = waves.length := by simp
  refine ⟨?_, ?_, ?_, ?_, ?_, fun h2 => calculateBeatFrequency_spec waves h2, ?_⟩
  · intro h0
    rw [detectPhenomenon, if_pos h0]
  · intro h1
    rw [detectPhenomenon, if_neg (by omega), if_pos h1]
  · intro hlt
    rw [calculateBeatFrequency, if_pos hlt]
  · exact List.mergeSort_perm _ _
  · have hp := @List.sorted_mergeSort ℝ (fun a b : ℝ => decide (a ≤ b))
      (fun a b c hab hbc => by
        simp only [decide_eq_true_eq] at hab hbc ⊢
        linarith)
      (fun a b => by
        simp only [Bool.or_eq_true, decide_eq_true_eq]
        exact le_total a b)
      (waves.map fun w => w.frequency)
    exact hp.imp (fun hab => by simpa using hab)
  · intro h2
    constructor
    · intro hbeat
      rw [detectPhenomenon, if_neg (by omega), if_neg (by omega), if_pos hbeat]
    · intro hnbeat
      constructor
      · intro hres
        rw [detectPhenomenon, if_neg (by omega), if_neg (by omega), if_neg hnbeat,
          if_pos ?_]
        rw [hasCloseFrequencies_iff]
        obtain ⟨i, j, hij, hjl, h⟩ := hres
        exact ⟨i, j, hij, by rw [hlenmap]; exact hjl, h⟩
      · intro hnres
        rw [detectPhenomenon, if_neg (by omega), if_neg (by omega), if_neg hnbeat,
          if_neg ?_]
        rw [hasCloseFrequencies_iff]
        rintro ⟨i, j, hij, hjl, h⟩
        exact hnres ⟨i, j, hij, by rw [← hlenmap]; exact hjl, h⟩

theorem detectPhenomenon_spec_witness :
    detectPhenomenon [] = "No waves" :=
  (detectPhenomenon_spec []).1 (by simp)

end WaveEngine

namespace InterferenceCalculator

/-- First normalization loop of `calculatePhaseShift`:
`while (diff < 0) diff += 360.0`. -/
def normNeg (d : ℝ) : ℝ :=
  if h : d < 0 then normNeg (d + 360) else d
termination_by (⌈-d / 360⌉).toNat
decreasing_by
  have h1 : -(d + 360) / 360 = -d / 360 - 1 := by ring
  have h2 : (⌈-(d + 360) / 360⌉ : ℤ) = ⌈-d / 360⌉ - 1 := by
    rw [h1]
    exact_mod_cast Int.ceil_sub_one (-d / 360)
  have h3 : (1 : ℤ) ≤ ⌈-d / 360⌉ := by
    apply Int.le_ceil_iff.mpr
    push_cast
    have _h4 : (0 : ℝ) < -d / 360 := div_pos (by linarith) (by norm_num)
    linarith
  omega

/-- Second normalization loop of `calculatePhaseShift`:
`while (diff >= 360.0) diff -= 360.0`. -/
def normHigh (d : ℝ) : ℝ :=
  if h : d ≥ 360 then normHigh (d - 360) else d
termination_by (⌊d / 360⌋).toNat
decreasing_by
  have h1 : (d - 360) / 360 = d / 360 - 1 := by ring
  have h2 : (⌊(d - 360) / 360⌋ : ℤ) = ⌊d / 360⌋ - 1 := by
    rw [h1]
    exact_mod_cast Int.floor_sub_one (d / 360)
  have h3 : (1 : ℤ) ≤ ⌊d / 360⌋ := by
    apply Int.le_floor.mpr
    push_cast
    linarith
  omega

/-- `InterferenceCalculator::calculatePhaseShift`: `phase2 - phase1`
normalized into `[0, 360)` by the two while loops. -/
def calculatePhaseShift (wave1 wave2 : WaveFunction) : ℝ :=
  normHigh (normNeg (wave2.phase - wave1.phase))

theorem normNeg_nonneg (d : ℝ) : 0 ≤ normNeg d := by
  induction d using normNeg.induct with
  | case1 d h ih => rwa [normNeg, dif_pos h]
  | case2 d h => rw [normNeg, dif_neg h]; linarith

theorem normNeg_congr (d : ℝ) : ∃ k : ℤ, normNeg d = d + 360 * k := by
  induction d using normNeg.induct with
  | case1 d h ih =>
    obtain ⟨k, hk⟩ := ih
    rw [normNeg, dif_pos h]
    exact ⟨k + 1, by rw [hk]; push_cast; ring⟩
  | case2 d h => exact ⟨0, by rw [normNeg, dif_neg h]; ring⟩

theorem normHigh_lt (d : ℝ) : normHigh d < 360 := by
  induction d using normHigh.induct with
  | case1 d h ih => rwa [normHigh, dif_pos h]
  | case2 d h => rw [normHigh, dif_neg h]; linarith

theorem normHigh_nonneg (d : ℝ) (hd : 0 ≤ d) : 0 ≤ normHigh d := by
  induction d using normHigh.induct with
  | case1 d h ih =>
    rw [normHigh, dif_pos h]
    exact ih (by linarith)
  | case2 d h => rwa [normHigh, dif_neg h]

theorem normHigh_congr (d : ℝ) : ∃ k : ℤ, normHigh d = d + 360 * k := by
  induction d using normHigh.induct with
  | case1 d h ih =>
    obtain ⟨k, hk⟩ := ih
    rw [normHigh, dif_pos h]
    exact ⟨k - 1, by rw [hk]; push_cast; ring⟩
  | case2 d h => exact ⟨0, by rw [normHigh, dif_neg h]; ring⟩

theorem calculatePhaseShift_spec (wave1 wave2 : WaveFunction) :
    0 ≤ calculatePhaseShift wave1 wave2 ∧ calculatePhaseShift wave1 wave2 < 360 ∧
    ∃ k : ℤ, calculatePhaseShift wave1 wave2 = (wave2.phase - wave1.phase) + 360 * k := by
  rw [calculatePhaseShift]
  refine ⟨normHigh_nonneg _ (normNeg_nonneg _), normHigh_lt _, ?_⟩
  obtain ⟨k1, hk1⟩ := normNeg_congr (wave2.phase - wave1.phase)
  obtain ⟨k2, hk2⟩ := normHigh_congr (normNeg (wave2.phase - wave1.phase))
  exact ⟨k1 + k2, by rw [hk2, hk1]; push_cast; ring⟩

/-- Sample grid of `calculateTwoWaveInterference` (and the other sampling
loops): `x_i = i * dx` with `dx = length / (numPoints - 1)`. -/
def samplePositions (length : ℝ) (numPoints : ℕ) : List ℝ :=
  (List.range numPoints).map (fun (i : ℕ) => (i : ℝ) * (length / ((numPoints - 1 : ℕ) : ℝ)))

/-- `InterferenceCalculator::calculateBeatFrequency`. -/
def calculateBeatFrequency (f1 f2 : ℝ) : ℝ := |f1 - f2|

/-- `InterferenceCalculator::calculateTotalAmplitude`. -/
def calculateTotalAmplitude (waves : List WaveFunction) (position time : ℝ) : ℝ :=
  waves.foldl (fun total w => total + w.evaluate position time) 0

/-- `InterferenceCalculator::findLocalExtrema`: interior strict local
minima/maxima indices (the C++ stores them as doubles and casts back). -/
def findLocalExtrema (data : List ℝ) (findMaxima : Bool) : List ℕ :=
  if data.length < 3 then []
  else (List.range' 1 (data.length - 2)).filter (fun i =>
    if findMaxima then
      decide (data.getD i 0 > data.getD (i - 1) 0 ∧ data.getD i 0 > data.getD (i + 1) 0)
    else
      decide (data.getD i 0 < data.getD (i - 1) 0 ∧ data.getD i 0 < data.getD (i + 1) 0))

/-- A node/antinode sample (`InterferenceNode`); `isNode` marks NODE (local
minimum) as opposed to ANTINODE. -/
structure InterferenceNode where
  position : ℝ
  amplitude : ℝ
  isNode : Bool

/-- `InterferenceCalculator::findInterferenceNodes`. -/
def findInterferenceNodes (waves : List WaveFunction) (time length : ℝ)
    (numPoints : ℕ) (threshold : ℝ) : List InterferenceNode :=
  let dx := length / ((numPoints - 1 : ℕ) : ℝ)
  let amplitudes := (List.range numPoints).map
    (fun (i : ℕ) => |calculateTotalAmplitude waves ((i : ℝ) * dx) time|)
  let minima := findLocalExtrema amplitudes false
  let maxima := findLocalExtrema amplitudes true
  (minima.filter (fun (idx : ℕ) => decide (idx < numPoints ∧ amplitudes.getD idx 0 ≤ threshold))).map
      (fun (idx : ℕ) => InterferenceNode.mk ((idx : ℝ) * dx) (amplitudes.getD idx 0) true) ++
    (maxima.filter (fun (idx : ℕ) => decide (idx < numPoints ∧ amplitudes.getD idx 0 ≥ threshold))).map
      (fun (idx : ℕ) => InterferenceNode.mk ((idx : ℝ) * dx) (amplitudes.getD idx 0) false)

/-- Interference classification labels (`InterferenceResult::Type`). -/
inductive InterferenceType where
  | CONSTRUCTIVE
  | DESTRUCTIVE
  | PARTIAL
  | NO_INTERFERENCE

/-- `InterferenceCalculator::classifyInterference`. -/
def classifyInterference (amplitude1 amplitude2 resultAmplitude tolerance : ℝ) :
    InterferenceType :=
  if resultAmplitude ≥ amplitude1 + amplitude2 - tolerance then .CONSTRUCTIVE
  else if resultAmplitude ≤ |amplitude1 - amplitude2| + tolerance then .DESTRUCTIVE
  else .PARTIAL

/-- Two-wave interference analysis record (`InterferenceResult`); the
human-readable `description` string is not modelled. -/
structure InterferenceResult where
  type : InterferenceType
  amplitude : ℝ
  phase : ℝ
  nodePositions : List ℝ
  antinodePositions : List ℝ
  beatFrequency : ℝ

/-- `InterferenceCalculator::calculateTwoWaveInterference`: sample the
pointwise sum of the two waves on the `samplePositions` grid, take
`max(|min|, |max|)` as peak amplitude, the normalized phase difference,
classification, beat frequency, and the node/antinode positions. -/
def calculateTwoWaveInterference (wave1 wave2 : WaveFunction) (time length : ℝ)
    (numPoints : ℕ) : InterferenceResult :=
  let dx := length / ((numPoints - 1 : ℕ) : ℝ)
  let amplitudes := (List.range numPoints).map
    (fun (i : ℕ) => wave1.evaluate ((i : ℝ) * dx) time + wave2.evaluate ((i : ℝ) * dx) time)
  let minAmp := amplitudes.foldl min (amplitudes.headD 0)
  let maxAmp := amplitudes.foldl max (amplitudes.headD 0)
  let amplitude := max |minAmp| |maxAmp|
  let phase := calculatePhaseShift wave1 wave2
  let type := classifyInterference wave1.amplitude wave2.amplitude amplitude 0.1
  let beatFrequency := calculateBeatFrequency wave1.frequency wave2.frequency
  let nodes := findInterferenceNodes [wave1, wave2] time length numPoints 0.1
  ⟨type, amplitude, phase,
    (nodes.filter (fun n => n.isNode)).map (fun n => n.position),
    (nodes.filter (fun n => !n.isNode)).map (fun n => n.position),
    beatFrequency⟩

theorem foldl_real_min_spec (l : List ℝ) :
    ∀ acc : ℝ,
      l.foldl min acc ≤ acc ∧
      (∀ x ∈ l, l.foldl min acc ≤ x) ∧
      (l.foldl min acc = acc ∨ l.foldl min acc ∈ l) := by
  induction l with
  | nil => intro acc; simp
  | cons x0 rest ih =>
    intro acc
    simp only [List.foldl_cons]
    obtain ⟨ih1, ih2, ih3⟩ := ih (min acc x0)
    refine ⟨le_trans ih1 (min_le_left _ _), ?_, ?_⟩
    · intro x hx
      rcases List.mem_cons.mp hx with rfl | hx2
      · exact le_trans ih1 (min_le_right _ _)
      · exact ih2 x hx2
    · rcases ih3 with heq | hmem
      · rcases min_choice acc x0 with hm | hm
        · left
          rw [heq, hm]
        · right
          rw [heq, hm]
          exact List.mem_cons_self x0 rest
      · right
        exact List.mem_cons_of_mem x0 hmem

theorem foldl_real_max_spec (l : List ℝ) :
    ∀ acc : ℝ,
      acc ≤ l.foldl max acc ∧
      (∀ x ∈ l, x ≤ l.foldl max acc) ∧
      (l.foldl max acc = acc ∨ l.foldl max acc ∈ l) := by
  induction l with
  | nil => intro acc; simp
  | cons x0 rest ih =>
    intro acc
    simp only [List.foldl_cons]
    obtain ⟨ih1, ih2, ih3⟩ := ih (max acc x0)
    refine ⟨le_trans (le_max_left _ _) ih1, ?_, ?_⟩
    · intro x hx
      rcases List.mem_cons.mp hx with rfl | hx2
      · exact le_trans (le_max_right _ _) ih1
      · exact ih2 x hx2
    · rcases ih3 with heq | hmem
      · rcases max_choice acc x0 with hm | hm
        · left
          rw [heq, hm]
        · right
          rw [heq, hm]
          exact List.mem_cons_self x0 rest
      · right
        exact List.mem_cons_of_mem x0 hmem

/-- C7 counterexample: with `length = 1` and `numPoints = 2` the code's grid is
`[0, 1]` — the last sample sits at `x = length`, which is not in the half-open
interval `[0, length)`, and the grid is not the half-open evenly spaced grid
`i * length / numPoints`. -/
theorem samplePositions_not_half_open :
    samplePositions 1 2 = [0, 1] ∧
    ¬ (∀ x ∈ samplePositions 1 2, x < 1) ∧
    samplePositions 1 2 ≠ (List.range 2).map (fun (i : ℕ) => (i : ℝ) * (1 / 2)) := by
  have h : samplePositions 1 2 = [0, 1] := by
    rw [samplePositions]
    norm_num [List.range_succ]
  refine ⟨h, ?_, ?_⟩
  · intro hall
    have := hall 1 (by rw [h]; simp)
    linarith
  · rw [h]
    intro hc
    simp only [List.range_succ, List.range_zero, List.map_append, List.map_cons,
      List.map_nil, List.nil_append, List.cons_append] at hc
    have := List.cons.injEq .. ▸ hc
    rw [List.cons.injEq, List.cons.injEq] at hc
    norm_num at hc

/-- C7 (amended): `calculateTwoWaveInterference` samples the pointwise sum of
the two waves at `numPoints` evenly spaced positions `i·length/(numPoints−1)`
spanning the closed interval `[0, length]`; the returned peak amplitude is the
maximum absolute sampled value, and the returned relative phase equals
`(phase2 − phase1)` normalized into `[0, 360)`. -/
theorem calculateTwoWaveInterference_spec (w1 w2 : WaveFunction) (t len : ℝ)
    (numPoints : ℕ) (h2 : 2 ≤ numPoints) :
    (samplePositions len numPoints).length = numPoints ∧
    (∀ i, i < numPoints →
      (samplePositions len numPoints).getD i 0
        = (i : ℝ) * (len / ((numPoints - 1 : ℕ) : ℝ))) ∧
    (samplePositions len numPoints).getD 0 0 = 0 ∧
    (samplePositions len numPoints).getD (numPoints - 1) 0 = len ∧
    (∀ i, i < numPoints →
      |w1.evaluate ((samplePositions len numPoints).getD i 0) t +
          w2.evaluate ((samplePositions len numPoints).getD i 0) t|
        ≤ (calculateTwoWaveInterference w1 w2 t len numPoints).amplitude) ∧
    (∃ i, i < numPoints ∧
      (calculateTwoWaveInterference w1 w2 t len numPoints).amplitude =
        |w1.evaluate ((samplePositions len numPoints).getD i 0) t +
            w2.evaluate ((samplePositions len numPoints).getD i 0) t|) ∧
    0 ≤ (calculateTwoWaveInterference w1 w2 t len numPoints).phase ∧
    (calculateTwoWaveInterference w1 w2 t len numPoints).phase < 360 ∧
    ∃ k : ℤ, (calculateTwoWaveInterference w1 w2 t len numPoints).phase
      = (w2.phase - w1.phase) + 360 * k := by
  have hpos : ∀ i, i < numPoints →
      (samplePositions len numPoints).getD i 0
        = (i : ℝ) * (len / ((numPoints - 1 : ℕ) : ℝ)) := by
    intro i hi
    rw [samplePositions, getD_map_range _ i _ _ hi]
  have hamp : (calculateTwoWaveInterference w1 w2 t len numPoints).amplitude =
      max |((List.range numPoints).map
          (fun (i : ℕ) => w1.evaluate ((i : ℝ) * (len / ((numPoints - 1 : ℕ) : ℝ))) t +
            w2.evaluate ((i : ℝ) * (len / ((numPoints - 1 : ℕ) : ℝ))) t)).foldl min
          (((List.range numPoints).map
            (fun (i : ℕ) => w1.evaluate ((i : ℝ) * (len / ((numPoints - 1 : ℕ) : ℝ))) t +
              w2.evaluate ((i : ℝ) * (len / ((numPoints - 1 : ℕ) : ℝ))) t)).headD 0)|
        |((List.range numPoints).map
          (fun (i : ℕ) => w1.evaluate ((i : ℝ) * (len / ((numPoints - 1 : ℕ) : ℝ))) t +
            w2.evaluate ((i : ℝ) * (len / ((numPoints - 1 : ℕ) : ℝ))) t)).foldl max
          (((List.range numPoints).map
            (fun (i : ℕ) => w1.evaluate ((i : ℝ) * (len / ((numPoints - 1 : ℕ) : ℝ))) t +
              w2.evaluate ((i : ℝ) * (len / ((numPoints - 1 : ℕ) : ℝ))) t)).headD 0)| := rfl
  set amps := (List.range numPoints).map
    (fun (i : ℕ) => w1.evaluate ((i : ℝ) * (len / ((numPoints - 1 : ℕ) : ℝ))) t +
      w2.evaluate ((i : ℝ) * (len / ((numPoints - 1 : ℕ) : ℝ))) t) with hamps
  have hlen : amps.length = numPoints := by rw [hamps]; simp
  have hne : amps ≠ [] := by
    intro hc
    rw [hc] at hlen
    simp at hlen
    omega
  have hhead : amps.headD 0 ∈ amps := by
    cases hampsc : amps with
    | nil => exact absurd hampsc hne
    | cons a rest => simp
  obtain ⟨hmin1, hmin2, hmin3⟩ := foldl_real_min_spec amps (amps.headD 0)
  obtain ⟨hmax1, hmax2, hmax3⟩ := foldl_real_max_spec amps (amps.headD 0)
  have hminmem : amps.foldl min (amps.headD 0) ∈ amps := by
    rcases hmin3 with heq | hmem
    · rw [heq]; exact hhead
    · exact hmem
  have hmaxmem : amps.foldl max (amps.headD 0) ∈ amps := by
    rcases hmax3 with heq | hmem
    · rw [heq]; exact hhead
    · exact hmem
  have hminle : ∀ x ∈ amps, amps.foldl min (amps.headD 0) ≤ x := hmin2
  have hmaxge : ∀ x ∈ amps, x ≤ amps.foldl max (amps.headD 0) := hmax2
  have hgetD_amp : ∀ i, i < numPoints → amps.getD i 0 =
      w1.evaluate ((samplePositions len numPoints).getD i 0) t +
        w2.evaluate ((samplePositions len numPoints).getD i 0) t := by
    intro i hi
    rw [hpos i hi, hamps, getD_map_range _ i _ _ hi]
  have hmem_getD : ∀ x ∈ amps, ∃ i, i < numPoints ∧ amps.getD i 0 = x := by
    intro x hx
    obtain ⟨i, hi, hix⟩ := List.mem_iff_getElem.mp hx
    refine ⟨i, by rw [← hlen]; exact hi, ?_⟩
    rw [List.getD_eq_getElem?_getD, List.getElem?_eq_getElem hi]
    simpa using hix
  refine ⟨by rw [samplePositions]; simp, hpos, ?_, ?_, ?_, ?_, ?_, ?_, ?_⟩
  · rw [hpos 0 (by omega)]
    simp
  · rw [hpos (numPoints - 1) (by omega)]
    have hnz : ((numPoints - 1 : ℕ) : ℝ) ≠ 0 := Nat.cast_ne_zero.mpr (by omega)
    have h2r : (2 : ℝ) ≤ (numPoints : ℝ) := by exact_mod_cast h2
    have hnz2 : (numPoints : ℝ) - 1 ≠ 0 := by
      intro hc
      nlinarith
    field_simp
  · intro i hi
    rw [← hgetD_amp i hi, hamp]
    have hmem : amps.getD i 0 ∈ amps := by
      have hi2 : i < amps.length := by rw [hlen]; exact hi
      rw [List.getD_eq_getElem?_getD, List.getElem?_eq_getElem hi2]
      simp only [Option.getD_some]
      exact List.getElem_mem hi2
    have h1 := hminle _ hmem
    have h2 := hmaxge _ hmem
    rw [abs_le]
    constructor
    · have : -(max |amps.foldl min (amps.headD 0)| |amps.foldl max (amps.headD 0)|)
          ≤ -(|amps.foldl min (amps.headD 0)|) := by
        simp [le_max_left]
      refine le_trans this ?_
      have := neg_abs_le (amps.foldl min (amps.headD 0))
      linarith
    · refine le_trans h2 ?_
      exact le_trans (le_abs_self _) (le_max_right _ _)
  · rcases max_choice |amps.foldl min (amps.headD 0)| |amps.foldl max (amps.headD 0)| with
      hch | hch
    · obtain ⟨i, hi, hieq⟩ := hmem_getD _ hminmem
      refine ⟨i, hi, ?_⟩
      rw [hamp, hch, ← hgetD_amp i hi, hieq]
    · obtain ⟨i, hi, hieq⟩ := hmem_getD _ hmaxmem
      refine ⟨i, hi, ?_⟩
      rw [hamp, hch, ← hgetD_amp i hi, hieq]
  · exact (calculatePhaseShift_spec w1 w2).1
  · exact (calculatePhaseShift_spec w1 w2).2.1
  · exact (calculatePhaseShift_spec w1 w2).2.2

theorem calculateTwoWaveInterference_spec_witness :
    (samplePositions 1 2).getD 1 0 = 1 := by
  have h := (calculateTwoWaveInterference_spec (SinusoidalWave 1 1 0)
    (SinusoidalWave 1 2 90) 0 1 2 (by norm_num)).2.2.2.1
  simp at h
  exact h

end InterferenceCalculator
